import Mathlib

/-!
Verification of the shlex byte tokenizer, quoter and joiner
(file src/bytes.rs of the rust-shlex repository), over a shallow
embedding: bytes are natural numbers (the code only ever compares them
with ASCII constants), byte strings are lists, the mutable tokenizer
struct is threaded explicitly.
-/

namespace ShlexVerif

/-- The tokenizer state: struct Shlex of bytes.rs. The field in_iter is the
remaining unconsumed input, line_no the number of newlines read so far plus
one, had_error the sticky error flag. -/
structure Shlex where
  in_iter : List Nat
  line_no : Nat
  had_error : Bool
deriving DecidableEq, Repr

/-- Shlex::new. -/
def Shlex.new (l : List Nat) : Shlex := ⟨l, 1, false⟩

/-- Line-number update performed by next_char: reading a newline (byte 10)
increments line_no. -/
def bump (c ln : Nat) : Nat := if c = 10 then ln + 1 else ln

/-- Shlex::next_char: pop the next byte off in_iter, counting newlines. -/
def next_char (s : Shlex) : Option Nat × Shlex :=
  match s with
  | ⟨[], ln, he⟩ => (none, ⟨[], ln, he⟩)
  | ⟨c :: rest, ln, he⟩ => (some c, ⟨rest, bump c ln, he⟩)

/-- Shlex::parse_single: consume bytes literally until a closing single
quote (byte 39); none if the input is exhausted first. The word built so
far is threaded through r. (next_char is inlined as a structural match so
that the recursion is visibly decreasing; see parse_single_eq.) -/
def parse_single (s : Shlex) (r : List Nat) : Option (List Nat) × Shlex :=
  match s with
  | ⟨[], ln, he⟩ => (none, ⟨[], ln, he⟩)
  | ⟨c :: rest, ln, he⟩ =>
    if c = 39 then (some r, ⟨rest, bump c ln, he⟩)
    else parse_single ⟨rest, bump c ln, he⟩ (r ++ [c])
termination_by s.in_iter.length
decreasing_by simp

/-- parse_single is next_char followed by the loop body, exactly as in the
source. -/
theorem parse_single_eq (s : Shlex) (r : List Nat) :
    parse_single s r =
      match next_char s with
      | (none, s1) => (none, s1)
      | (some c, s1) =>
        if c = 39 then (some r, s1) else parse_single s1 (r ++ [c]) := by
  match s with
  | ⟨[], ln, he⟩ => simp [parse_single, next_char]
  | ⟨c :: rest, ln, he⟩ => simp [parse_single, next_char]

/-- Shlex::parse_double: consume until a closing double quote (34);
a backslash (92) followed by one of dollar (36), backtick (96), double
quote (34), backslash (92) yields that byte, backslash-newline is elided,
backslash before any other byte keeps both bytes; none if the input ends
first. -/
def parse_double (s : Shlex) (r : List Nat) : Option (List Nat) × Shlex :=
  match s with
  | ⟨[], ln, he⟩ => (none, ⟨[], ln, he⟩)
  | ⟨c :: rest, ln, he⟩ =>
    if c = 92 then
      match rest with
      | [] => (none, ⟨[], bump c ln, he⟩)
      | c3 :: rest2 =>
        if c3 = 36 ∨ c3 = 96 ∨ c3 = 34 ∨ c3 = 92 then
          parse_double ⟨rest2, bump c3 (bump c ln), he⟩ (r ++ [c3])
        else if c3 = 10 then
          parse_double ⟨rest2, bump c3 (bump c ln), he⟩ r
        else
          parse_double ⟨rest2, bump c3 (bump c ln), he⟩ (r ++ [92, c3])
    else if c = 34 then (some r, ⟨rest, bump c ln, he⟩)
    else parse_double ⟨rest, bump c ln, he⟩ (r ++ [c])
termination_by s.in_iter.length
decreasing_by all_goals simp <;> omega

/-- parse_single consumes input: the remaining input never grows. -/
theorem parse_single_le (s : Shlex) (r : List Nat) :
    (parse_single s r).2.in_iter.length ≤ s.in_iter.length := by
  induction s, r using parse_single.induct <;>
    (rw [parse_single.eq_def]; try simp_all) <;> try omega

/-- parse_double consumes input: the remaining input never grows. -/
theorem parse_double_le (s : Shlex) (r : List Nat) :
    (parse_double s r).2.in_iter.length ≤ s.in_iter.length := by
  induction s, r using parse_double.induct <;>
    (rw [parse_double.eq_def]; try simp_all) <;> try omega

mutual

/-- Shlex::parse_word: the unquoted-word loop. The current byte is ch;
a double quote (34) enters parse_double, a single quote (39) enters
parse_single, a backslash (92) escapes the following byte (elided when it
is a newline, an error when the input is exhausted), space, tab or newline
(32, 9, 10) ends the word, any other byte is appended literally.
parse_word_cont is the loop tail that fetches the next byte or finishes
the word at end of input. -/
def parse_word (s : Shlex) (ch : Nat) (r : List Nat) : Option (List Nat) × Shlex :=
  if ch = 34 then
    parse_word_quoted (parse_double s r)
  else if ch = 39 then
    parse_word_quoted (parse_single s r)
  else if ch = 92 then
    match s with
    | ⟨[], ln, _⟩ => (none, ⟨[], ln, true⟩)
    | ⟨c2 :: rest, ln, he⟩ =>
      parse_word_cont ⟨rest, bump c2 ln, he⟩ (if c2 = 10 then r else r ++ [c2])
  else if ch = 32 ∨ ch = 9 ∨ ch = 10 then
    (some r, s)
  else
    parse_word_cont s (r ++ [ch])
termination_by (s.in_iter.length, 2)
decreasing_by
  · rcases Nat.lt_or_ge (parse_double s r).2.in_iter.length s.in_iter.length with h | h
    · exact Prod.Lex.left _ _ h
    · have h2 := parse_double_le s r
      have h3 : (parse_double s r).2.in_iter.length = s.in_iter.length := le_antisymm h2 h
      rw [h3]
      exact Prod.Lex.right _ (by omega)
  · rcases Nat.lt_or_ge (parse_single s r).2.in_iter.length s.in_iter.length with h | h
    · exact Prod.Lex.left _ _ h
    · have h2 := parse_single_le s r
      have h3 : (parse_single s r).2.in_iter.length = s.in_iter.length := le_antisymm h2 h
      rw [h3]
      exact Prod.Lex.right _ (by omega)
  · exact Prod.Lex.left _ _ (by simp)
  · exact Prod.Lex.right _ (by omega)

/-- The shared tail of parse_word's two quotation branches: an Err from
the sub-parse sets had_error and ends the iteration, dropping the word
under construction; an Ok continues the word loop. -/
def parse_word_quoted (p : Option (List Nat) × Shlex) : Option (List Nat) × Shlex :=
  match p with
  | (none, s2) => (none, { s2 with had_error := true })
  | (some r2, s2) => parse_word_cont s2 r2
termination_by (p.2.in_iter.length, 1)
decreasing_by
  exact Prod.Lex.right _ (by omega)

/-- The end of each parse_word loop iteration: fetch the next byte and
continue, or yield the word built so far at end of input. -/
def parse_word_cont (s : Shlex) (r : List Nat) : Option (List Nat) × Shlex :=
  match s with
  | ⟨[], ln, he⟩ => (some r, ⟨[], ln, he⟩)
  | ⟨c2 :: rest, ln, he⟩ => parse_word ⟨rest, bump c2 ln, he⟩ c2 r
termination_by (s.in_iter.length, 0)
decreasing_by
  exact Prod.Lex.left _ _ (by simp)

end

/-- The comment loop in Iterator::next: having read a hash byte (35) at a
token-start position, consume bytes until a newline is consumed or the
input ends. -/
def consume_comment (s : Shlex) : Shlex :=
  match s with
  | ⟨[], ln, he⟩ => ⟨[], ln, he⟩
  | ⟨c2 :: rest, ln, he⟩ =>
    if c2 = 10 then ⟨rest, bump c2 ln, he⟩
    else consume_comment ⟨rest, bump c2 ln, he⟩
termination_by s.in_iter.length
decreasing_by simp

/-- consume_comment consumes input: the remaining input never grows. -/
theorem consume_comment_le (s : Shlex) :
    (consume_comment s).in_iter.length ≤ s.in_iter.length := by
  induction s using consume_comment.induct <;>
    (rw [consume_comment.eq_def]; try simp_all) <;> try omega

mutual

/-- The skip-initial-whitespace loop of Iterator::next. The current byte
is ch: whitespace (32, 9, 10) is skipped, a hash (35) consumes a comment,
anything else ends the skip phase and is the first byte of the word.
skip_ws_step is the loop tail that fetches the next byte, returning none
when the input ends during the skip phase. -/
def skip_ws (s : Shlex) (ch : Nat) : Option Nat × Shlex :=
  if ch = 32 ∨ ch = 9 ∨ ch = 10 then
    skip_ws_step s
  else if ch = 35 then
    skip_ws_step (consume_comment s)
  else
    (some ch, s)
termination_by (s.in_iter.length, 1)
decreasing_by
  · exact Prod.Lex.right _ (by omega)
  · rcases Nat.lt_or_ge (consume_comment s).in_iter.length s.in_iter.length with h | h
    · exact Prod.Lex.left _ _ h
    · have h3 : (consume_comment s).in_iter.length = s.in_iter.length :=
        le_antisymm (consume_comment_le s) h
      rw [h3]
      exact Prod.Lex.right _ (by omega)

/-- The end of each skip-phase iteration: fetch the next byte and
continue the skip loop, or signal end of input. -/
def skip_ws_step (s : Shlex) : Option Nat × Shlex :=
  match s with
  | ⟨[], ln, he⟩ => (none, ⟨[], ln, he⟩)
  | ⟨c2 :: rest, ln, he⟩ => skip_ws ⟨rest, bump c2 ln, he⟩ c2
termination_by (s.in_iter.length, 0)
decreasing_by
  exact Prod.Lex.left _ _ (by simp)

end

/-- parse_word, parse_word_cont and parse_word_quoted consume input: the
remaining input never grows. -/
theorem parse_word_le_tri :
    (∀ s ch r, (parse_word s ch r).2.in_iter.length ≤ s.in_iter.length) ∧
    (∀ s r, (parse_word_cont s r).2.in_iter.length ≤ s.in_iter.length) ∧
    (∀ p, (parse_word_quoted p).2.in_iter.length ≤ p.2.in_iter.length) := by
  refine parse_word.mutual_induct
    (fun s ch r => (parse_word s ch r).2.in_iter.length ≤ s.in_iter.length)
    (fun s r => (parse_word_cont s r).2.in_iter.length ≤ s.in_iter.length)
    (fun p => (parse_word_quoted p).2.in_iter.length ≤ p.2.in_iter.length)
    ?_ ?_ ?_ ?_ ?_ ?_ ?_ ?_ ?_ ?_
  · intro s r ih
    have hd := parse_double_le s r
    rw [parse_word.eq_def]
    try simp_all
    try omega
  · intro s r h ih
    have hd := parse_single_le s r
    rw [parse_word.eq_def]
    try simp_all
    try omega
  · intro r ln he h1 h2
    rw [parse_word.eq_def]
    try simp
  · intro r c rest ln he h1 h2 ih
    rw [parse_word.eq_def]
    by_cases hc : c = 10 <;> simp_all <;> omega
  · intro s ch r h34 h39 h92 hws
    rw [parse_word.eq_def]
    try simp_all
  · intro s ch r h34 h39 h92 hws ih
    rw [parse_word.eq_def]
    try simp_all
  · intro r ln he
    rw [parse_word_cont.eq_def]
    try simp
  · intro r c rest ln he ih
    rw [parse_word_cont.eq_def]
    try simp_all
    try omega
  · intro s2
    rw [parse_word_quoted.eq_def]
    try simp
  · intro r2 s2 ih
    rw [parse_word_quoted.eq_def]
    try simp_all

/-- skip_ws and skip_ws_step consume input: the remaining input never
grows. -/
theorem skip_ws_le_pair :
    (∀ s ch, (skip_ws s ch).2.in_iter.length ≤ s.in_iter.length) ∧
    (∀ s, (skip_ws_step s).2.in_iter.length ≤ s.in_iter.length) := by
  refine skip_ws.mutual_induct
    (fun s ch => (skip_ws s ch).2.in_iter.length ≤ s.in_iter.length)
    (fun s => (skip_ws_step s).2.in_iter.length ≤ s.in_iter.length)
    ?_ ?_ ?_ ?_ ?_
  · intro s ch hws ih
    rw [skip_ws.eq_def]
    try simp_all
  · intro s h35 ih
    have hc := consume_comment_le s
    rw [skip_ws.eq_def]
    try simp_all
    try omega
  · intro s ch hws h35
    rw [skip_ws.eq_def]
    try simp_all
  · intro ln he
    rw [skip_ws_step.eq_def]
    try simp
  · intro c rest ln he ih
    rw [skip_ws_step.eq_def]
    try simp_all
    try omega

theorem parse_word_le (s : Shlex) (ch : Nat) (r : List Nat) :
    (parse_word s ch r).2.in_iter.length ≤ s.in_iter.length :=
  parse_word_le_tri.1 s ch r

theorem skip_ws_le (s : Shlex) (ch : Nat) :
    (skip_ws s ch).2.in_iter.length ≤ s.in_iter.length :=
  skip_ws_le_pair.1 s ch

/-- Iterator::next for Shlex: read the first byte, run the skip phase,
then parse a word; none (end of the word sequence) if the input is
exhausted before a word starts. -/
def next (s : Shlex) : Option (List Nat) × Shlex :=
  match next_char s with
  | (none, s1) => (none, s1)
  | (some ch, s1) =>
    match skip_ws s1 ch with
    | (none, s2) => (none, s2)
    | (some ch2, s2) => parse_word s2 ch2 []

/-- When next yields a word, it consumed at least one byte. -/
theorem next_some_lt (s : Shlex) (w : List Nat) (s2 : Shlex)
    (h : next s = (some w, s2)) : s2.in_iter.length < s.in_iter.length := by
  match hs : s with
  | ⟨[], ln, he⟩ =>
    simp [next, next_char] at h
  | ⟨c :: rest, ln, he⟩ =>
    simp only [next, next_char] at h
    match hw : skip_ws ⟨rest, bump c ln, he⟩ c with
    | (none, s3) =>
      rw [hw] at h
      simp at h
    | (some ch2, s3) =>
      rw [hw] at h
      simp only at h
      have h1 : (skip_ws ⟨rest, bump c ln, he⟩ c).2.in_iter.length ≤ rest.length :=
        skip_ws_le _ _
      rw [hw] at h1
      have h2 := parse_word_le s3 ch2 []
      rw [h] at h2
      simp at h1 h2 ⊢
      omega

/-- Drain the iterator to the end, collecting every yielded word, as the
collect step of split does. -/
def run (s : Shlex) : List (List Nat) × Shlex :=
  match h : next s with
  | (none, s2) => ([], s2)
  | (some w, s2) => ((run s2).1.cons w, (run s2).2)
termination_by s.in_iter.length
decreasing_by
  all_goals exact next_some_lt s w s2 h

/-- Unfolding equation for run with an ordinary (non-dependent) match. -/
theorem run_eq (s : Shlex) :
    run s = match next s with
      | (none, s2) => ([], s2)
      | (some w, s2) => ((run s2).1.cons w, (run s2).2) := by
  rw [run.eq_def]
  split
  · rename_i heq
    simp [heq]
  · rename_i heq
    simp [heq]

/-- bytes::split: collect all the words; none if had_error was set. -/
def split (l : List Nat) : Option (List (List Nat)) :=
  if (run (Shlex.new l)).2.had_error then none else some (run (Shlex.new l)).1

/-- The byte classes treated as metacharacters by quote (the characters
in the match arm of bytes::quote): | & ; < > ( ) dollar backtick
backslash double-quote single-quote space tab CR LF * ? [ hash tilde
equals percent. -/
def isMeta (c : Nat) : Bool :=
  c = 124 ∨ c = 38 ∨ c = 59 ∨ c = 60 ∨ c = 62 ∨ c = 40 ∨ c = 41 ∨
  c = 36 ∨ c = 96 ∨ c = 92 ∨ c = 34 ∨ c = 39 ∨ c = 32 ∨ c = 9 ∨
  c = 13 ∨ c = 10 ∨ c = 42 ∨ c = 63 ∨ c = 91 ∨ c = 35 ∨ c = 126 ∨
  c = 61 ∨ c = 37

/-- The bytes escaped inside the double quotes produced by quote:
dollar (36), backtick (96), double quote (34), backslash (92). -/
def isDqSpecial (c : Nat) : Bool :=
  c = 36 ∨ c = 96 ∨ c = 34 ∨ c = 92

/-- bytes::quote: the empty word becomes a pair of double quotes; a word
containing a metacharacter is wrapped in double quotes with a backslash
pushed before each dollar, backtick, double quote or backslash; any
other word is returned unchanged. The byte loop is a fold pushing onto
the output buffer, as in the source. -/
def quote (w : List Nat) : List Nat :=
  if w = [] then [34, 34]
  else if w.any isMeta then
    (w.foldl (fun out c =>
      (if isDqSpecial c then out ++ [92] else out) ++ [c]) [34]) ++ [34]
  else w

/-- bytes::join: quote every word and join the results with a single
space (32) separator, as the slice join of the source does. -/
def join (ws : List (List Nat)) : List Nat :=
  match ws with
  | [] => []
  | [w] => quote w
  | w :: rest => quote w ++ 32 :: join rest

/-- One byte of quote's double-quoted output: specials get a preceding
backslash, everything else is copied as is. -/
def escByte (c : Nat) : List Nat := if isDqSpecial c then [92, c] else [c]

/-- The body produced between the two double quotes by quote. -/
def quoteBody (w : List Nat) : List Nat := w.flatMap escByte

theorem quote_foldl (w acc : List Nat) :
    w.foldl (fun out c => (if isDqSpecial c then out ++ [92] else out) ++ [c]) acc
      = acc ++ quoteBody w := by
  induction w generalizing acc with
  | nil => simp [quoteBody]
  | cons c w ih =>
    by_cases hc : isDqSpecial c <;> simp [quoteBody, escByte, hc, ih]

theorem quote_of_meta (w : List Nat) (h0 : w ≠ []) (hm : w.any isMeta) :
    quote w = 34 :: (quoteBody w ++ [34]) := by
  simp [quote, h0, hm, quote_foldl]

theorem quote_of_safe (w : List Nat) (h0 : w ≠ []) (hm : w.any isMeta = false) :
    quote w = w := by
  simp [quote, h0, hm]

/-- Bytes that neither terminate nor escape anything inside single
quotes: everything except the single quote itself. -/
theorem parse_single_run (cs : List Nat) (h : ∀ c ∈ cs, c ≠ 39)
    (rest : List Nat) (ln : Nat) (he : Bool) (r : List Nat) :
    parse_single ⟨cs ++ rest, ln, he⟩ r
      = parse_single ⟨rest, ln + cs.count 10, he⟩ (r ++ cs) := by
  induction cs generalizing ln r with
  | nil => simp
  | cons c cs ih =>
    have hc : c ≠ 39 := h c (by simp)
    have htail : ∀ x ∈ cs, x ≠ 39 := fun x hx => h x (by simp [hx])
    rw [List.cons_append, parse_single]
    rw [if_neg hc, ih htail]
    have hcount : bump c ln + cs.count 10 = ln + (c :: cs).count 10 := by
      by_cases h10 : c = 10 <;> simp [bump, h10, List.count_cons] <;> omega
    rw [hcount]
    simp

theorem parse_single_no_close (l : List Nat) (h : ∀ c ∈ l, c ≠ 39)
    (ln : Nat) (he : Bool) (r : List Nat) :
    parse_single ⟨l, ln, he⟩ r = (none, ⟨[], ln + l.count 10, he⟩) := by
  have h2 := parse_single_run l h [] ln he r
  simp only [List.append_nil] at h2
  rw [h2, parse_single]

theorem parse_single_found (p : List Nat) (h : ∀ c ∈ p, c ≠ 39)
    (rest : List Nat) (ln : Nat) (he : Bool) (r : List Nat) :
    parse_single ⟨p ++ 39 :: rest, ln, he⟩ r
      = (some (r ++ p), ⟨rest, ln + p.count 10, he⟩) := by
  rw [parse_single_run p h _ ln he r, parse_single]
  simp [bump]

/-- Parsing the escaped body produced by quote inside double quotes
recovers the original word and consumes through the closing quote. -/
theorem parse_double_body (w : List Nat) (rest : List Nat) (ln : Nat)
    (he : Bool) (r : List Nat) :
    parse_double ⟨quoteBody w ++ 34 :: rest, ln, he⟩ r
      = (some (r ++ w), ⟨rest, ln + w.count 10, he⟩) := by
  induction w generalizing ln r with
  | nil =>
    rw [quoteBody]
    simp only [List.flatMap_nil, List.nil_append]
    rw [parse_double.eq_def]
    simp [bump]
  | cons c w ih =>
    by_cases hc : isDqSpecial c
    · have hprop : c = 36 ∨ c = 96 ∨ c = 34 ∨ c = 92 := by
        simpa [isDqSpecial] using hc
      have hc10 : c ≠ 10 := by rcases hprop with h | h | h | h <;> omega
      have hbody : quoteBody (c :: w) = 92 :: c :: quoteBody w := by
        simp [quoteBody, escByte, hc]
      rw [hbody, List.cons_append, List.cons_append, parse_double.eq_def]
      simp only [if_pos rfl, if_pos hprop]
      rw [ih]
      simp [bump, hc10, List.count_cons]
    · have h36 : ¬(c = 36 ∨ c = 96 ∨ c = 34 ∨ c = 92) := by
        simpa [isDqSpecial] using hc
      have h92 : c ≠ 92 := by tauto
      have h34 : c ≠ 34 := by tauto
      have hbody : quoteBody (c :: w) = c :: quoteBody w := by
        simp [quoteBody, escByte, hc]
      rw [hbody, List.cons_append, parse_double.eq_def]
      simp only [if_neg h92, if_neg h34]
      rw [ih]
      have hcount : bump c ln + w.count 10 = ln + (c :: w).count 10 := by
        by_cases h10 : c = 10 <;> simp [bump, h10, List.count_cons] <;> omega
      rw [hcount]
      simp

/-- A byte that does nothing special in the unquoted word loop: not a
quote, not a backslash, not whitespace. -/
def isWordPlain (c : Nat) : Bool :=
  ¬(c = 34 ∨ c = 39 ∨ c = 92 ∨ c = 32 ∨ c = 9 ∨ c = 10)

/-- A run of plain bytes is appended to the word verbatim. -/
theorem parse_word_cont_run (cs : List Nat) (h : ∀ c ∈ cs, isWordPlain c)
    (rest : List Nat) (ln : Nat) (he : Bool) (r : List Nat) :
    parse_word_cont ⟨cs ++ rest, ln, he⟩ r
      = parse_word_cont ⟨rest, ln, he⟩ (r ++ cs) := by
  induction cs generalizing r with
  | nil => simp
  | cons c cs ih =>
    have hc : ¬(c = 34 ∨ c = 39 ∨ c = 92 ∨ c = 32 ∨ c = 9 ∨ c = 10) := by
      simpa [isWordPlain] using h c (by simp)
    have h34 : c ≠ 34 := by tauto
    have h39 : c ≠ 39 := by tauto
    have h92 : c ≠ 92 := by tauto
    have h10 : c ≠ 10 := by tauto
    have htail : ∀ x ∈ cs, isWordPlain x := fun x hx => h x (by simp [hx])
    rw [List.cons_append, parse_word_cont.eq_def]
    simp only
    rw [parse_word.eq_def]
    simp only [if_neg h34, if_neg h39, if_neg h92, if_neg (show ¬(c = 32 ∨ c = 9 ∨ c = 10) by tauto)]
    simp only [bump, if_neg h10]
    rw [ih htail]
    simp

theorem parse_word_dq (s : Shlex) (r : List Nat) :
    parse_word s 34 r = parse_word_quoted (parse_double s r) := by
  rw [parse_word.eq_def]
  simp

theorem parse_word_sq (s : Shlex) (r : List Nat) :
    parse_word s 39 r = parse_word_quoted (parse_single s r) := by
  rw [parse_word.eq_def]
  simp

theorem parse_word_esc_nil (ln : Nat) (he : Bool) (r : List Nat) :
    parse_word ⟨[], ln, he⟩ 92 r = (none, ⟨[], ln, true⟩) := by
  rw [parse_word.eq_def]
  simp

theorem parse_word_esc_cons (c : Nat) (rest : List Nat) (ln : Nat)
    (he : Bool) (r : List Nat) :
    parse_word ⟨c :: rest, ln, he⟩ 92 r
      = parse_word_cont ⟨rest, bump c ln, he⟩ (if c = 10 then r else r ++ [c]) := by
  rw [parse_word.eq_def]
  simp

theorem parse_word_ws (s : Shlex) (ch : Nat) (r : List Nat)
    (h : ch = 32 ∨ ch = 9 ∨ ch = 10) : parse_word s ch r = (some r, s) := by
  rcases h with h | h | h <;> subst h <;> rw [parse_word.eq_def] <;> simp

theorem parse_word_plain (s : Shlex) (ch : Nat) (r : List Nat)
    (h : isWordPlain ch) : parse_word s ch r = parse_word_cont s (r ++ [ch]) := by
  have h2 : ¬(ch = 34 ∨ ch = 39 ∨ ch = 92 ∨ ch = 32 ∨ ch = 9 ∨ ch = 10) := by
    simpa [isWordPlain] using h
  rw [parse_word.eq_def]
  rw [if_neg (show ¬(ch = 34) by tauto), if_neg (show ¬(ch = 39) by tauto),
    if_neg (show ¬(ch = 92) by tauto), if_neg (show ¬(ch = 32 ∨ ch = 9 ∨ ch = 10) by tauto)]

theorem parse_word_cont_nil (ln : Nat) (he : Bool) (r : List Nat) :
    parse_word_cont ⟨[], ln, he⟩ r = (some r, ⟨[], ln, he⟩) := by
  rw [parse_word_cont.eq_def]

theorem parse_word_cont_cons (c : Nat) (rest : List Nat) (ln : Nat)
    (he : Bool) (r : List Nat) :
    parse_word_cont ⟨c :: rest, ln, he⟩ r = parse_word ⟨rest, bump c ln, he⟩ c r := by
  rw [parse_word_cont.eq_def]

theorem skip_ws_noskip (s : Shlex) (ch : Nat)
    (h1 : ¬(ch = 32 ∨ ch = 9 ∨ ch = 10)) (h2 : ch ≠ 35) :
    skip_ws s ch = (some ch, s) := by
  rw [skip_ws.eq_def, if_neg h1, if_neg h2]

/-- Every byte of a word free of metacharacters is plain for the word
loop, since all the word-loop specials are metacharacters. -/
theorem no_meta_plain (c : Nat) (h : isMeta c = false) : isWordPlain c := by
  simp only [isMeta, decide_eq_false_iff_not] at h
  have h2 : ¬(c = 34 ∨ c = 39 ∨ c = 92 ∨ c = 32 ∨ c = 9 ∨ c = 10) := by tauto
  simp only [isWordPlain, decide_eq_true_eq]
  exact h2

theorem no_meta_count10 (w : List Nat) (hm : w.any isMeta = false) :
    w.count 10 = 0 := by
  rw [List.count_eq_zero]
  intro h10
  have := List.any_eq_false.mp hm 10 h10
  simp [isMeta] at this

/-- When the skip phase lands on a byte that starts a word, next is the
word parser started at that byte. -/
theorem next_start_word (c : Nat) (rest : List Nat) (ln : Nat) (he : Bool)
    (h1 : ¬(c = 32 ∨ c = 9 ∨ c = 10)) (h2 : c ≠ 35) :
    next ⟨c :: rest, ln, he⟩ = parse_word ⟨rest, bump c ln, he⟩ c [] := by
  simp only [next, next_char]
  rw [skip_ws_noskip _ _ h1 h2]

/-- Reading one quoted word followed by a space separator: the tokenizer
yields exactly the original word and stops right after the space. -/
theorem next_word_sep (w r2 : List Nat) (ln : Nat) :
    next ⟨quote w ++ 32 :: r2, ln, false⟩
      = (some w, ⟨r2, ln + w.count 10, false⟩) := by
  by_cases h0 : w = []
  · subst h0
    simp only [quote, if_pos rfl, List.count_nil, Nat.add_zero]
    simp [next, next_char, skip_ws, skip_ws_step, parse_word_cont,
      parse_word_quoted, parse_double, parse_word_dq, bump]
    exact parse_word_ws _ _ _ (by omega)
  by_cases hm : w.any isMeta
  · rw [quote_of_meta w h0 hm]
    have h1 : (34 :: (quoteBody w ++ [34])) ++ 32 :: r2
        = 34 :: (quoteBody w ++ 34 :: 32 :: r2) := by simp
    rw [h1, next_start_word 34 _ _ _ (by omega) (by omega)]
    rw [parse_word_dq, parse_double_body]
    rw [parse_word_quoted.eq_def]
    simp only [bump, if_neg (show (34 : Nat) ≠ 10 by omega)]
    rw [parse_word_cont_cons, parse_word_ws _ _ _ (by omega)]
    simp [bump]
  · have hmf : w.any isMeta = false := by simpa using hm
    rw [quote_of_safe w h0 hmf]
    match w, h0 with
    | c :: cs, _ =>
      have hall : ∀ x ∈ c :: cs, isMeta x = false := by
        intro x hx
        simpa using List.any_eq_false.mp hmf x hx
      have hc : isWordPlain c := no_meta_plain c (hall c (by simp))
      have hcs : ∀ x ∈ cs, isWordPlain x := fun x hx =>
        no_meta_plain x (hall x (by simp [hx]))
      have hcprop : ¬(c = 34 ∨ c = 39 ∨ c = 92 ∨ c = 32 ∨ c = 9 ∨ c = 10) := by
        simpa [isWordPlain] using hc
      have hc10 : c ≠ 10 := by tauto
      have hc35 : c ≠ 35 := by
        intro hx
        have := hall c (by simp)
        rw [hx] at this
        simp [isMeta] at this
      rw [List.cons_append, next_start_word c _ _ _ (by tauto) hc35]
      rw [parse_word_plain _ _ _ hc]
      simp only [bump, if_neg hc10]
      rw [parse_word_cont_run cs hcs]
      rw [parse_word_cont_cons, parse_word_ws _ _ _ (by omega)]
      rw [no_meta_count10 _ hmf]
      simp [bump]

/-- Reading one quoted word at the very end of the input: the tokenizer
yields exactly the original word and the input is exhausted. -/
theorem next_word_last (w : List Nat) (ln : Nat) :
    next ⟨quote w, ln, false⟩
      = (some w, ⟨[], ln + w.count 10, false⟩) := by
  by_cases h0 : w = []
  · subst h0
    simp [quote, next, next_char, skip_ws, skip_ws_step, parse_word,
      parse_word_cont, parse_word_quoted, parse_double, bump]
  by_cases hm : w.any isMeta
  · rw [quote_of_meta w h0 hm]
    rw [next_start_word 34 _ _ _ (by omega) (by omega)]
    rw [parse_word_dq]
    have h1 : quoteBody w ++ [34] = quoteBody w ++ 34 :: ([] : List Nat) := by simp
    rw [h1, parse_double_body]
    rw [parse_word_quoted.eq_def]
    simp only [bump, if_neg (show (34 : Nat) ≠ 10 by omega)]
    rw [parse_word_cont_nil]
    simp
  · have hmf : w.any isMeta = false := by simpa using hm
    rw [quote_of_safe w h0 hmf]
    match w, h0 with
    | c :: cs, _ =>
      have hall : ∀ x ∈ c :: cs, isMeta x = false := by
        intro x hx
        simpa using List.any_eq_false.mp hmf x hx
      have hc : isWordPlain c := no_meta_plain c (hall c (by simp))
      have hcs : ∀ x ∈ cs, isWordPlain x := fun x hx =>
        no_meta_plain x (hall x (by simp [hx]))
      have hcprop : ¬(c = 34 ∨ c = 39 ∨ c = 92 ∨ c = 32 ∨ c = 9 ∨ c = 10) := by
        simpa [isWordPlain] using hc
      have hc10 : c ≠ 10 := by tauto
      have hc35 : c ≠ 35 := by
        intro hx
        have := hall c (by simp)
        rw [hx] at this
        simp [isMeta] at this
      rw [next_start_word c _ _ _ (by tauto) hc35]
      rw [parse_word_plain _ _ _ hc]
      simp only [bump, if_neg hc10]
      have hrun := parse_word_cont_run cs hcs [] ln false ([] ++ [c])
      simp only [List.append_nil] at hrun
      rw [hrun, parse_word_cont_nil]
      rw [no_meta_count10 _ hmf]
      simp [bump]

/-- Draining the tokenizer over a joined word list recovers exactly the
word list, with no error. -/
theorem run_join (ws : List (List Nat)) (ln : Nat) :
    (run ⟨join ws, ln, false⟩).1 = ws ∧
    (run ⟨join ws, ln, false⟩).2.had_error = false := by
  induction ws generalizing ln with
  | nil =>
    have hj : join [] = [] := rfl
    rw [hj, run_eq]
    simp [next, next_char]
  | cons w ws ih =>
    match ws with
    | [] =>
      have hj : join [w] = quote w := rfl
      rw [hj, run_eq, next_word_last]
      simp only
      rw [run_eq]
      constructor <;> simp [next, next_char]
    | w2 :: ws' =>
      have hj : join (w :: w2 :: ws') = quote w ++ 32 :: join (w2 :: ws') := rfl
      rw [hj, run_eq, next_word_sep]
      simp only
      exact ⟨by simp [(ih _).1], (ih _).2⟩

/-- The quantity left invariant by every consuming step: the current
line number plus the newlines still to come. It equals 1 plus the total
newline count at the start, so line_no is always 1 plus the newlines
consumed so far. -/
def lnTotal (s : Shlex) : Nat := s.line_no + s.in_iter.count 10

theorem bump_count (c ln : Nat) (l : List Nat) :
    bump c ln + l.count 10 = ln + (c :: l).count 10 := by
  by_cases h : c = 10 <;> simp [bump, h, List.count_cons] <;> omega

theorem bump_ne (c ln : Nat) (h : c ≠ 10) : bump c ln = ln := by
  simp [bump, h]

theorem bump_10 (ln : Nat) : bump 10 ln = ln + 1 := by
  simp [bump]

theorem next_char_ln (s : Shlex) : lnTotal (next_char s).2 = lnTotal s := by
  match s with
  | ⟨[], ln, he⟩ => rfl
  | ⟨c :: rest, ln, he⟩ =>
    simp only [next_char, lnTotal]
    exact bump_count c ln rest

theorem parse_single_ln (s : Shlex) (r : List Nat) :
    lnTotal (parse_single s r).2 = lnTotal s := by
  induction s, r using parse_single.induct <;>
    (rw [parse_single.eq_def]; try simp_all [lnTotal, bump_count]) <;>
    try omega

theorem parse_double_ln (s : Shlex) (r : List Nat) :
    lnTotal (parse_double s r).2 = lnTotal s := by
  induction s, r using parse_double.induct <;>
    (rw [parse_double.eq_def]; try simp_all [lnTotal, bump_count, bump_ne, bump_10, List.count_cons]) <;>
    try omega

theorem parse_word_ln_tri :
    (∀ s ch r, lnTotal (parse_word s ch r).2 = lnTotal s) ∧
    (∀ s r, lnTotal (parse_word_cont s r).2 = lnTotal s) ∧
    (∀ p, lnTotal (parse_word_quoted p).2 = lnTotal p.2) := by
  refine parse_word.mutual_induct
    (fun s ch r => lnTotal (parse_word s ch r).2 = lnTotal s)
    (fun s r => lnTotal (parse_word_cont s r).2 = lnTotal s)
    (fun p => lnTotal (parse_word_quoted p).2 = lnTotal p.2)
    ?_ ?_ ?_ ?_ ?_ ?_ ?_ ?_ ?_ ?_
  · intro s r ih
    have hd := parse_double_ln s r
    rw [parse_word.eq_def]
    try simp_all
  · intro s r h ih
    have hd := parse_single_ln s r
    rw [parse_word.eq_def]
    try simp_all
  · intro r ln he h1 h2
    rw [parse_word.eq_def]
    try simp [lnTotal]
  · intro r c rest ln he h1 h2 ih
    rw [parse_word.eq_def]
    try simp_all [lnTotal, bump_count]
    try omega
  · intro s ch r h34 h39 h92 hws
    rw [parse_word.eq_def]
    try simp_all
  · intro s ch r h34 h39 h92 hws ih
    rw [parse_word.eq_def]
    try simp_all
  · intro r ln he
    rw [parse_word_cont.eq_def]
  · intro r c rest ln he ih
    rw [parse_word_cont.eq_def]
    try simp_all [lnTotal, bump_count]
    try omega
  · intro s2
    rw [parse_word_quoted.eq_def]
    try simp [lnTotal]
  · intro r2 s2 ih
    rw [parse_word_quoted.eq_def]
    try simp_all

theorem consume_comment_ln (s : Shlex) :
    lnTotal (consume_comment s) = lnTotal s := by
  induction s using consume_comment.induct <;>
    (rw [consume_comment.eq_def]; try simp_all [lnTotal, bump_count]) <;>
    try omega

theorem skip_ws_ln_pair :
    (∀ s ch, lnTotal (skip_ws s ch).2 = lnTotal s) ∧
    (∀ s, lnTotal (skip_ws_step s).2 = lnTotal s) := by
  refine skip_ws.mutual_induct
    (fun s ch => lnTotal (skip_ws s ch).2 = lnTotal s)
    (fun s => lnTotal (skip_ws_step s).2 = lnTotal s)
    ?_ ?_ ?_ ?_ ?_
  · intro s ch hws ih
    rw [skip_ws.eq_def]
    try simp_all
  · intro s h35 ih
    have hc := consume_comment_ln s
    rw [skip_ws.eq_def]
    try simp_all
  · intro s ch hws h35
    rw [skip_ws.eq_def]
    try simp_all
  · intro ln he
    rw [skip_ws_step.eq_def]
  · intro c rest ln he ih
    rw [skip_ws_step.eq_def]
    try simp_all [lnTotal, bump_count]
    try omega

theorem next_ln (s : Shlex) : lnTotal (next s).2 = lnTotal s := by
  match s with
  | ⟨[], ln, he⟩ => rfl
  | ⟨c :: rest, ln, he⟩ =>
    simp only [next, next_char]
    match hw : skip_ws ⟨rest, bump c ln, he⟩ c with
    | (none, s2) =>
      have h1 := skip_ws_ln_pair.1 ⟨rest, bump c ln, he⟩ c
      rw [hw] at h1
      simp only [lnTotal] at h1 ⊢
      rw [h1]
      exact bump_count c ln rest
    | (some ch2, s2) =>
      have h1 := skip_ws_ln_pair.1 ⟨rest, bump c ln, he⟩ c
      rw [hw] at h1
      have h2 := parse_word_ln_tri.1 s2 ch2 []
      simp only [lnTotal] at h1 h2 ⊢
      rw [h2, h1]
      exact bump_count c ln rest

theorem run_ln (s : Shlex) : lnTotal (run s).2 = lnTotal s := by
  induction s using run.induct with
  | case1 s s2 h =>
    have h2 := next_ln s
    rw [h] at h2
    rw [run_eq, h]
    simpa using h2
  | case2 s w s2 h ih =>
    rw [run_eq, h]
    simp only
    rw [ih]
    have h2 := next_ln s
    rw [h] at h2
    exact h2

theorem parse_single_he (s : Shlex) (r : List Nat) :
    (parse_single s r).2.had_error = s.had_error := by
  induction s, r using parse_single.induct <;>
    (rw [parse_single.eq_def]; try simp_all)

theorem parse_double_he (s : Shlex) (r : List Nat) :
    (parse_double s r).2.had_error = s.had_error := by
  induction s, r using parse_double.induct <;>
    (rw [parse_double.eq_def]; try simp_all)

theorem parse_single_none_empty (s : Shlex) (r : List Nat)
    (h : (parse_single s r).1 = none) : (parse_single s r).2.in_iter = [] := by
  induction s, r using parse_single.induct <;>
    (rw [parse_single.eq_def] at h ⊢; try simp_all)

theorem parse_double_none_empty (s : Shlex) (r : List Nat)
    (h : (parse_double s r).1 = none) : (parse_double s r).2.in_iter = [] := by
  induction s, r using parse_double.induct <;>
    (rw [parse_double.eq_def] at h ⊢; try simp_all)

/-- had_error after the word loop: it is set exactly when the loop
signals an error by yielding no word (or was set before). -/
theorem parse_word_he_tri :
    (∀ s ch r, (parse_word s ch r).2.had_error
        = (s.had_error || (parse_word s ch r).1.isNone)) ∧
    (∀ s r, (parse_word_cont s r).2.had_error
        = (s.had_error || (parse_word_cont s r).1.isNone)) ∧
    (∀ p, (parse_word_quoted p).2.had_error
        = (p.2.had_error || (parse_word_quoted p).1.isNone)) := by
  refine parse_word.mutual_induct
    (fun s ch r => (parse_word s ch r).2.had_error
        = (s.had_error || (parse_word s ch r).1.isNone))
    (fun s r => (parse_word_cont s r).2.had_error
        = (s.had_error || (parse_word_cont s r).1.isNone))
    (fun p => (parse_word_quoted p).2.had_error
        = (p.2.had_error || (parse_word_quoted p).1.isNone))
    ?_ ?_ ?_ ?_ ?_ ?_ ?_ ?_ ?_ ?_
  · intro s r ih
    have hd := parse_double_he s r
    rw [parse_word.eq_def]
    try simp_all
  · intro s r h ih
    have hd := parse_single_he s r
    rw [parse_word.eq_def]
    try simp_all
  · intro r ln he h1 h2
    rw [parse_word.eq_def]
    try simp
  · intro r c rest ln he h1 h2 ih
    rw [parse_word.eq_def]
    try simp_all
  · intro s ch r h34 h39 h92 hws
    rw [parse_word.eq_def]
    try simp_all
  · intro s ch r h34 h39 h92 hws ih
    rw [parse_word.eq_def]
    try simp_all
  · intro r ln he
    rw [parse_word_cont.eq_def]
    try simp
  · intro r c rest ln he ih
    rw [parse_word_cont.eq_def]
    try simp_all
  · intro s2
    rw [parse_word_quoted.eq_def]
    try simp
  · intro r2 s2 ih
    rw [parse_word_quoted.eq_def]
    try simp_all

/-- When the word loop yields no word the input has been exhausted. -/
theorem parse_word_none_empty_tri :
    (∀ s ch r, (parse_word s ch r).1 = none → (parse_word s ch r).2.in_iter = []) ∧
    (∀ s r, (parse_word_cont s r).1 = none → (parse_word_cont s r).2.in_iter = []) ∧
    (∀ p, (p.1 = none → p.2.in_iter = []) →
      ((parse_word_quoted p).1 = none → (parse_word_quoted p).2.in_iter = [])) := by
  refine parse_word.mutual_induct
    (fun s ch r => (parse_word s ch r).1 = none → (parse_word s ch r).2.in_iter = [])
    (fun s r => (parse_word_cont s r).1 = none → (parse_word_cont s r).2.in_iter = [])
    (fun p => (p.1 = none → p.2.in_iter = []) →
      ((parse_word_quoted p).1 = none → (parse_word_quoted p).2.in_iter = []))
    ?_ ?_ ?_ ?_ ?_ ?_ ?_ ?_ ?_ ?_
  · intro s r ih
    have hd := parse_double_none_empty s r
    rw [parse_word.eq_def]
    try simp_all
  · intro s r h ih
    have hd := parse_single_none_empty s r
    rw [parse_word.eq_def]
    try simp_all
  · intro r ln he h1 h2
    rw [parse_word.eq_def]
    try simp
  · intro r c rest ln he h1 h2 ih
    rw [parse_word.eq_def]
    try simp_all
  · intro s ch r h34 h39 h92 hws
    rw [parse_word.eq_def]
    try simp_all
  · intro s ch r h34 h39 h92 hws ih
    rw [parse_word.eq_def]
    try simp_all
  · intro r ln he
    rw [parse_word_cont.eq_def]
    try simp
  · intro r c rest ln he ih
    rw [parse_word_cont.eq_def]
    try simp_all
  · intro s2
    rw [parse_word_quoted.eq_def]
    try simp_all
  · intro r2 s2 ih
    rw [parse_word_quoted.eq_def]
    try simp_all

theorem consume_comment_he (s : Shlex) :
    (consume_comment s).had_error = s.had_error := by
  induction s using consume_comment.induct <;>
    (rw [consume_comment.eq_def]; try simp_all)

theorem skip_ws_he_pair :
    (∀ s ch, (skip_ws s ch).2.had_error = s.had_error) ∧
    (∀ s, (skip_ws_step s).2.had_error = s.had_error) := by
  refine skip_ws.mutual_induct
    (fun s ch => (skip_ws s ch).2.had_error = s.had_error)
    (fun s => (skip_ws_step s).2.had_error = s.had_error)
    ?_ ?_ ?_ ?_ ?_
  · intro s ch hws ih
    rw [skip_ws.eq_def]
    try simp_all
  · intro s h35 ih
    have hc := consume_comment_he s
    rw [skip_ws.eq_def]
    try simp_all
  · intro s ch hws h35
    rw [skip_ws.eq_def]
    try simp_all
  · intro ln he
    rw [skip_ws_step.eq_def]
  · intro c rest ln he ih
    rw [skip_ws_step.eq_def]
    try simp_all

/-- When the skip phase signals end of sequence the input is exhausted. -/
theorem skip_ws_none_empty_pair :
    (∀ s ch, (skip_ws s ch).1 = none → (skip_ws s ch).2.in_iter = []) ∧
    (∀ s, (skip_ws_step s).1 = none → (skip_ws_step s).2.in_iter = []) := by
  refine skip_ws.mutual_induct
    (fun s ch => (skip_ws s ch).1 = none → (skip_ws s ch).2.in_iter = [])
    (fun s => (skip_ws_step s).1 = none → (skip_ws_step s).2.in_iter = [])
    ?_ ?_ ?_ ?_ ?_
  · intro s ch hws ih
    rw [skip_ws.eq_def]
    try simp_all
  · intro s h35 ih
    rw [skip_ws.eq_def]
    try simp_all
  · intro s ch hws h35
    rw [skip_ws.eq_def]
    try simp_all
  · intro ln he
    rw [skip_ws_step.eq_def]
    try simp
  · intro c rest ln he ih
    rw [skip_ws_step.eq_def]
    try simp_all

/-- A pull that yields a word does not change the error flag. -/
theorem next_some_he (s : Shlex) (w : List Nat) (s2 : Shlex)
    (h : next s = (some w, s2)) : s2.had_error = s.had_error := by
  match s with
  | ⟨[], ln, he⟩ => simp [next, next_char] at h
  | ⟨c :: rest, ln, he⟩ =>
    simp only [next, next_char] at h
    match hw : skip_ws ⟨rest, bump c ln, he⟩ c with
    | (none, s3) =>
      rw [hw] at h
      simp at h
    | (some ch2, s3) =>
      rw [hw] at h
      simp only at h
      have h1 := skip_ws_he_pair.1 ⟨rest, bump c ln, he⟩ c
      rw [hw] at h1
      have h2 := parse_word_he_tri.1 s3 ch2 []
      rw [h] at h2
      simp at h1 h2
      rw [h1] at h2
      exact h2

/-- The scanning modes named by the specification of the error
conditions: between tokens (delim), inside an unquoted word, inside a
comment, inside single quotes, inside double quotes, right after an
unescaped backslash in word mode or in double-quote mode. -/
inductive ScanState where
  | delim
  | word
  | comment
  | single
  | double
  | wordEsc
  | doubleEsc
deriving DecidableEq, Repr

/-- One byte of the specification scanner, read in the current mode. -/
def scanStep (st : ScanState) (c : Nat) : ScanState :=
  match st with
  | .delim =>
    if c = 32 ∨ c = 9 ∨ c = 10 then .delim
    else if c = 35 then .comment
    else if c = 34 then .double
    else if c = 39 then .single
    else if c = 92 then .wordEsc
    else .word
  | .word =>
    if c = 32 ∨ c = 9 ∨ c = 10 then .delim
    else if c = 34 then .double
    else if c = 39 then .single
    else if c = 92 then .wordEsc
    else .word
  | .comment => if c = 10 then .delim else .comment
  | .single => if c = 39 then .word else .single
  | .double =>
    if c = 34 then .word
    else if c = 92 then .doubleEsc
    else .double
  | .wordEsc => .word
  | .doubleEsc => .double

/-- The mode in which scanning a byte list ends, starting from st. -/
def scanEnd (st : ScanState) (l : List Nat) : ScanState := l.foldl scanStep st

/-- The specification's malformed-input modes: the input ended inside an
open single quote, inside an open double quote (possibly right after a
backslash), or right after an unescaped trailing backslash. -/
def isBad (st : ScanState) : Prop :=
  st = .single ∨ st = .double ∨ st = .wordEsc ∨ st = .doubleEsc

/-- Modelled from the spec (section 7): an input byte sequence is
malformed exactly when it ends inside an open double quote, inside an
open single quote, or immediately after an unescaped trailing
backslash. -/
def malformedSpec (l : List Nat) : Bool :=
  match scanEnd .delim l with
  | .single | .double | .wordEsc | .doubleEsc => true
  | _ => false

theorem scanEnd_nil (st : ScanState) : scanEnd st [] = st := rfl

theorem scanEnd_cons (st : ScanState) (c : Nat) (l : List Nat) :
    scanEnd st (c :: l) = scanEnd (scanStep st c) l := rfl

theorem malformedSpec_iff (l : List Nat) :
    malformedSpec l = true ↔ isBad (scanEnd .delim l) := by
  rw [malformedSpec]
  rcases h : scanEnd .delim l <;> simp [isBad]

/-- Simulation of parse_single by the specification scanner. -/
theorem parse_single_sim (s : Shlex) (r : List Nat) :
    ((parse_single s r).1 = none → scanEnd .single s.in_iter = .single) ∧
    (∀ w, (parse_single s r).1 = some w →
      scanEnd .single s.in_iter = scanEnd .word (parse_single s r).2.in_iter) := by
  induction s, r using parse_single.induct with
  | case1 r ln he =>
    rw [parse_single.eq_def]
    simp [scanEnd_nil]
  | case2 r rest ln he =>
    rw [parse_single.eq_def]
    simp [scanEnd_cons, scanStep]
  | case3 r c rest ln he hc ih =>
    rw [parse_single.eq_def]
    simp only [if_neg hc]
    rw [scanEnd_cons]
    have hstep : scanStep .single c = .single := by simp [scanStep, hc]
    rw [hstep]
    exact ih

/-- Simulation of parse_double by the specification scanner. -/
theorem parse_double_sim (s : Shlex) (r : List Nat) :
    ((parse_double s r).1 = none →
      scanEnd .double s.in_iter = .double ∨ scanEnd .double s.in_iter = .doubleEsc) ∧
    (∀ w, (parse_double s r).1 = some w →
      scanEnd .double s.in_iter = scanEnd .word (parse_double s r).2.in_iter) := by
  induction s, r using parse_double.induct with
  | case1 r ln he =>
    rw [parse_double.eq_def]
    simp [scanEnd_nil]
  | case2 r ln he =>
    rw [parse_double.eq_def]
    simp [scanEnd_cons, scanEnd_nil, scanStep]
  | case3 r ln he c3 rest2 h3 ih =>
    rw [parse_double.eq_def]
    simp only [if_pos rfl, if_pos h3]
    rw [scanEnd_cons, scanEnd_cons]
    have h1 : scanStep .double 92 = .doubleEsc := by simp [scanStep]
    have h2 : scanStep .doubleEsc c3 = .double := by simp [scanStep]
    rw [h1, h2]
    exact ih
  | case4 r ln he rest2 h3 ih =>
    rw [parse_double.eq_def]
    simp only [if_pos rfl, if_neg h3, if_pos rfl]
    rw [scanEnd_cons, scanEnd_cons]
    have h1 : scanStep .double 92 = .doubleEsc := by simp [scanStep]
    have h2 : scanStep .doubleEsc 10 = .double := by simp [scanStep]
    rw [h1, h2]
    exact ih
  | case5 r ln he c3 rest2 h3 h10 ih =>
    rw [parse_double.eq_def]
    simp only [if_pos rfl, if_neg h3, if_neg h10]
    rw [scanEnd_cons, scanEnd_cons]
    have h1 : scanStep .double 92 = .doubleEsc := by simp [scanStep]
    have h2 : scanStep .doubleEsc c3 = .double := by simp [scanStep]
    rw [h1, h2]
    exact ih
  | case6 r rest ln he h34 =>
    rw [parse_double.eq_def]
    simp only [if_neg (show ¬(34 : Nat) = 92 by omega), if_pos rfl]
    rw [scanEnd_cons]
    have h1 : scanStep .double 34 = .word := by simp [scanStep]
    rw [h1]
    simp
  | case7 r c rest ln he h92 h34 ih =>
    rw [parse_double.eq_def]
    simp only [if_neg h92, if_neg h34]
    rw [scanEnd_cons]
    have h1 : scanStep .double c = .double := by simp [scanStep, h92, h34]
    rw [h1]
    exact ih

/-- Simulation of the comment loop by the specification scanner. -/
theorem consume_comment_cons10 (rest : List Nat) (ln : Nat) (he : Bool) :
    consume_comment ⟨10 :: rest, ln, he⟩ = ⟨rest, bump 10 ln, he⟩ := by
  rw [consume_comment.eq_def]
  simp

theorem consume_comment_sim (s : Shlex) :
    scanEnd .comment s.in_iter = scanEnd .delim (consume_comment s).in_iter ∨
    ((consume_comment s).in_iter = [] ∧ scanEnd .comment s.in_iter = .comment) := by
  induction s using consume_comment.induct with
  | case1 ln he =>
    rw [consume_comment.eq_def]
    simp [scanEnd_nil]
  | case2 rest ln he =>
    rw [consume_comment_cons10]
    left
    rw [scanEnd_cons]
    have h1 : scanStep .comment 10 = .delim := by simp [scanStep]
    rw [h1]
  | case3 c2 rest ln he h10 ih =>
    rw [consume_comment.eq_def]
    simp only [if_neg h10]
    rw [scanEnd_cons]
    have h1 : scanStep .comment c2 = .comment := by simp [scanStep, h10]
    rw [h1]
    exact ih

theorem skip_ws_step_nil (ln : Nat) (he : Bool) :
    skip_ws_step ⟨[], ln, he⟩ = (none, ⟨[], ln, he⟩) := by
  rw [skip_ws_step.eq_def]

/-- On a byte that starts a word, the delim mode and the word mode of
the specification scanner transition identically. -/
theorem scanStep_delim_word (c : Nat)
    (h1 : ¬(c = 32 ∨ c = 9 ∨ c = 10)) (h2 : c ≠ 35) :
    scanStep .delim c = scanStep .word c := by
  simp only [scanStep, if_neg h1, if_neg h2]

/-- Simulation of the skip phase by the specification scanner: it ends
cleanly in delim or comment mode at end of input, or hands over a
word-starting byte with the fold preserved. -/
theorem skip_ws_sim_pair :
    (∀ s ch,
      ((skip_ws s ch).1 = none →
        scanEnd .delim (ch :: s.in_iter) = .delim ∨
        scanEnd .delim (ch :: s.in_iter) = .comment) ∧
      (∀ c2, (skip_ws s ch).1 = some c2 →
        (¬(c2 = 32 ∨ c2 = 9 ∨ c2 = 10) ∧ c2 ≠ 35) ∧
        scanEnd .delim (ch :: s.in_iter)
          = scanEnd .delim (c2 :: (skip_ws s ch).2.in_iter))) ∧
    (∀ s,
      ((skip_ws_step s).1 = none →
        scanEnd .delim s.in_iter = .delim ∨ scanEnd .delim s.in_iter = .comment) ∧
      (∀ c2, (skip_ws_step s).1 = some c2 →
        (¬(c2 = 32 ∨ c2 = 9 ∨ c2 = 10) ∧ c2 ≠ 35) ∧
        scanEnd .delim s.in_iter
          = scanEnd .delim (c2 :: (skip_ws_step s).2.in_iter))) := by
  refine skip_ws.mutual_induct
    (fun s ch =>
      ((skip_ws s ch).1 = none →
        scanEnd .delim (ch :: s.in_iter) = .delim ∨
        scanEnd .delim (ch :: s.in_iter) = .comment) ∧
      (∀ c2, (skip_ws s ch).1 = some c2 →
        (¬(c2 = 32 ∨ c2 = 9 ∨ c2 = 10) ∧ c2 ≠ 35) ∧
        scanEnd .delim (ch :: s.in_iter)
          = scanEnd .delim (c2 :: (skip_ws s ch).2.in_iter)))
    (fun s =>
      ((skip_ws_step s).1 = none →
        scanEnd .delim s.in_iter = .delim ∨ scanEnd .delim s.in_iter = .comment) ∧
      (∀ c2, (skip_ws_step s).1 = some c2 →
        (¬(c2 = 32 ∨ c2 = 9 ∨ c2 = 10) ∧ c2 ≠ 35) ∧
        scanEnd .delim s.in_iter
          = scanEnd .delim (c2 :: (skip_ws_step s).2.in_iter)))
    ?_ ?_ ?_ ?_ ?_
  · intro s ch hws ih
    rw [skip_ws.eq_def, if_pos hws]
    rw [scanEnd_cons]
    have h1 : scanStep .delim ch = .delim := by simp [scanStep, hws]
    rw [h1]
    exact ih
  · intro s h35 ih
    rw [skip_ws.eq_def, if_neg h35, if_pos rfl]
    rw [scanEnd_cons]
    have h1 : scanStep .delim 35 = .comment := by simp [scanStep]
    rw [h1]
    rcases consume_comment_sim s with hA | ⟨hB1, hB2⟩
    · rw [hA]
      exact ih
    · constructor
      · intro _
        right
        exact hB2
      · intro c2 hc2
        exfalso
        have hcc : consume_comment s = ⟨[], (consume_comment s).line_no,
            (consume_comment s).had_error⟩ := by
          rcases hstruct : consume_comment s with ⟨i, l, e⟩
          rw [hstruct] at hB1
          simp at hB1
          rw [hB1]
        rw [hcc, skip_ws_step_nil] at hc2
        simp at hc2
  · intro s ch hws h35
    rw [skip_ws.eq_def, if_neg hws, if_neg h35]
    constructor
    · intro h
      simp at h
    · intro c2 hc2
      simp at hc2
      subst hc2
      exact ⟨⟨hws, h35⟩, rfl⟩
  · intro ln he
    rw [skip_ws_step_nil]
    constructor
    · intro _
      left
      rfl
    · intro c2 hc2
      simp at hc2
  · intro c rest ln he ih
    rw [skip_ws_step.eq_def]
    exact ih

/-- Simulation of the word loop by the specification scanner: an error
leaves the scanner in a malformed mode, a yielded word leaves it either
back between tokens or cleanly at end of input in word mode. -/
theorem parse_word_sim_tri :
    (∀ s ch r,
      ((parse_word s ch r).1 = none → isBad (scanEnd .word (ch :: s.in_iter))) ∧
      (∀ w, (parse_word s ch r).1 = some w →
        scanEnd .word (ch :: s.in_iter) = scanEnd .delim (parse_word s ch r).2.in_iter ∨
        ((parse_word s ch r).2.in_iter = [] ∧ scanEnd .word (ch :: s.in_iter) = .word))) ∧
    (∀ s r,
      ((parse_word_cont s r).1 = none → isBad (scanEnd .word s.in_iter)) ∧
      (∀ w, (parse_word_cont s r).1 = some w →
        scanEnd .word s.in_iter = scanEnd .delim (parse_word_cont s r).2.in_iter ∨
        ((parse_word_cont s r).2.in_iter = [] ∧ scanEnd .word s.in_iter = .word))) ∧
    (∀ p,
      ((parse_word_quoted p).1 = none →
        p.1 = none ∨ isBad (scanEnd .word p.2.in_iter)) ∧
      (∀ w, (parse_word_quoted p).1 = some w →
        (∃ r2, p.1 = some r2) ∧
        (scanEnd .word p.2.in_iter = scanEnd .delim (parse_word_quoted p).2.in_iter ∨
         ((parse_word_quoted p).2.in_iter = [] ∧ scanEnd .word p.2.in_iter = .word)))) := by
  refine parse_word.mutual_induct
    (fun s ch r =>
      ((parse_word s ch r).1 = none → isBad (scanEnd .word (ch :: s.in_iter))) ∧
      (∀ w, (parse_word s ch r).1 = some w →
        scanEnd .word (ch :: s.in_iter) = scanEnd .delim (parse_word s ch r).2.in_iter ∨
        ((parse_word s ch r).2.in_iter = [] ∧ scanEnd .word (ch :: s.in_iter) = .word)))
    (fun s r =>
      ((parse_word_cont s r).1 = none → isBad (scanEnd .word s.in_iter)) ∧
      (∀ w, (parse_word_cont s r).1 = some w →
        scanEnd .word s.in_iter = scanEnd .delim (parse_word_cont s r).2.in_iter ∨
        ((parse_word_cont s r).2.in_iter = [] ∧ scanEnd .word s.in_iter = .word)))
    (fun p =>
      ((parse_word_quoted p).1 = none →
        p.1 = none ∨ isBad (scanEnd .word p.2.in_iter)) ∧
      (∀ w, (parse_word_quoted p).1 = some w →
        (∃ r2, p.1 = some r2) ∧
        (scanEnd .word p.2.in_iter = scanEnd .delim (parse_word_quoted p).2.in_iter ∨
         ((parse_word_quoted p).2.in_iter = [] ∧ scanEnd .word p.2.in_iter = .word))))
    ?_ ?_ ?_ ?_ ?_ ?_ ?_ ?_ ?_ ?_
  · intro s r ihQ
    rw [parse_word_dq]
    rw [scanEnd_cons]
    have hst : scanStep .word 34 = .double := by simp [scanStep]
    rw [hst]
    constructor
    · intro h
      rcases ihQ.1 h with hnone | hbad
      · rcases (parse_double_sim s r).1 hnone with h1 | h1 <;> rw [h1] <;> simp [isBad]
      · rcases hpd : (parse_double s r).1 with _ | w2
        · rcases (parse_double_sim s r).1 hpd with h1 | h1 <;> rw [h1] <;> simp [isBad]
        · rw [(parse_double_sim s r).2 w2 hpd]
          exact hbad
    · intro w h
      obtain ⟨⟨r2, hpd⟩, hdisj⟩ := ihQ.2 w h
      rw [(parse_double_sim s r).2 r2 hpd]
      exact hdisj
  · intro s r h39 ihQ
    rw [parse_word_sq]
    rw [scanEnd_cons]
    have hst : scanStep .word 39 = .single := by simp [scanStep]
    rw [hst]
    constructor
    · intro h
      rcases ihQ.1 h with hnone | hbad
      · rw [(parse_single_sim s r).1 hnone]
        simp [isBad]
      · rcases hps : (parse_single s r).1 with _ | w2
        · rw [(parse_single_sim s r).1 hps]
          simp [isBad]
        · rw [(parse_single_sim s r).2 w2 hps]
          exact hbad
    · intro w h
      obtain ⟨⟨r2, hps⟩, hdisj⟩ := ihQ.2 w h
      rw [(parse_single_sim s r).2 r2 hps]
      exact hdisj
  · intro r ln he h1 h2
    rw [parse_word_esc_nil]
    constructor
    · intro _
      rw [scanEnd_cons]
      have hst : scanStep .word 92 = .wordEsc := by simp [scanStep]
      rw [hst, scanEnd_nil]
      simp [isBad]
    · intro w h
      simp at h
  · intro r c rest ln he h1 h2 ihC
    rw [parse_word_esc_cons]
    rw [scanEnd_cons, scanEnd_cons]
    have hs1 : scanStep .word 92 = .wordEsc := by simp [scanStep]
    have hs2 : scanStep .wordEsc c = .word := by simp [scanStep]
    rw [hs1, hs2]
    have hX : (if h : c = 10 then r else r ++ [c]) = (if c = 10 then r else r ++ [c]) := by
      by_cases hc : c = 10 <;> simp [hc]
    rw [hX] at ihC
    exact ihC
  · intro s ch r h34 h39 h92 hws
    rw [parse_word_ws _ _ _ hws]
    constructor
    · intro h
      simp at h
    · intro w h
      left
      rw [scanEnd_cons]
      have hst : scanStep .word ch = .delim := by simp [scanStep, hws]
      rw [hst]
  · intro s ch r h34 h39 h92 hws ihC
    have hpl : isWordPlain ch := by
      simp only [isWordPlain, decide_eq_true_eq]
      tauto
    rw [parse_word_plain _ _ _ hpl]
    rw [scanEnd_cons]
    have hst : scanStep .word ch = .word := by
      simp [scanStep, hws, h34, h39, h92]
    rw [hst]
    exact ihC
  · intro r ln he
    rw [parse_word_cont_nil]
    constructor
    · intro h
      simp at h
    · intro w h
      right
      exact ⟨rfl, rfl⟩
  · intro r c rest ln he ihW
    rw [parse_word_cont_cons]
    exact ihW
  · intro s2
    rw [parse_word_quoted.eq_def]
    constructor
    · intro _
      left
      rfl
    · intro w h
      simp at h
  · intro r2 s2 ihC
    rw [parse_word_quoted.eq_def]
    constructor
    · intro h
      right
      exact ihC.1 h
    · intro w h
      exact ⟨⟨r2, rfl⟩, ihC.2 w h⟩

theorem next_nil (ln : Nat) (he : Bool) :
    next ⟨[], ln, he⟩ = (none, ⟨[], ln, he⟩) := rfl

theorem run_empty (s : Shlex) (h : s.in_iter = []) : run s = ([], s) := by
  rcases s with ⟨i, ln, he⟩
  simp only at h
  subst h
  rw [run_eq, next_nil]

/-- Simulation of one pull of the tokenizer by the specification
scanner. -/
theorem next_sim (s : Shlex) :
    ((next s).1 = none →
       ((next s).2.had_error = s.had_error ∧ ¬ isBad (scanEnd .delim s.in_iter)) ∨
       ((next s).2.had_error = true ∧ isBad (scanEnd .delim s.in_iter))) ∧
    (∀ w, (next s).1 = some w →
       scanEnd .delim s.in_iter = scanEnd .delim (next s).2.in_iter ∨
       ((next s).2.in_iter = [] ∧ ¬ isBad (scanEnd .delim s.in_iter))) := by
  match s with
  | ⟨[], ln, he⟩ =>
    rw [next_nil]
    constructor
    · intro _
      left
      refine ⟨rfl, ?_⟩
      rw [scanEnd_nil]
      simp [isBad]
    · intro w h
      simp at h
  | ⟨c :: rest, ln, he⟩ =>
    simp only [next, next_char]
    have hskip := skip_ws_sim_pair.1 ⟨rest, bump c ln, he⟩ c
    have hskiphe := skip_ws_he_pair.1 ⟨rest, bump c ln, he⟩ c
    match hw : skip_ws ⟨rest, bump c ln, he⟩ c with
    | (none, s2) =>
      rw [hw] at hskip hskiphe
      simp only at hskip hskiphe ⊢
      constructor
      · intro _
        left
        refine ⟨hskiphe, ?_⟩
        rcases hskip.1 trivial with h1 | h1 <;> rw [h1] <;> simp [isBad]
      · intro w h
        simp at h
    | (some ch2, s2) =>
      rw [hw] at hskip hskiphe
      simp only at hskip hskiphe ⊢
      obtain ⟨⟨hch2ws, hch235⟩, hfold⟩ := hskip.2 ch2 rfl
      have hdw : scanEnd .delim (ch2 :: s2.in_iter) = scanEnd .word (ch2 :: s2.in_iter) := by
        rw [scanEnd_cons, scanEnd_cons, scanStep_delim_word ch2 hch2ws hch235]
      have hword := parse_word_sim_tri.1 s2 ch2 []
      have hwordhe := parse_word_he_tri.1 s2 ch2 []
      constructor
      · intro h
        right
        constructor
        · rw [hwordhe, h]
          simp
        · rw [hfold, hdw]
          exact hword.1 h
      · intro w h
        rcases hword.2 w h with h1 | ⟨h1, h2⟩
        · left
          rw [hfold, hdw, h1]
        · right
          refine ⟨h1, ?_⟩
          rw [hfold, hdw, h2]
          simp [isBad]

/-- The specification of the error flag: running the tokenizer to the
end sets had_error exactly on the inputs the specification scanner
classifies as malformed. -/
theorem run_err_iff (s : Shlex) (hhe : s.had_error = false) :
    (run s).2.had_error = true ↔ isBad (scanEnd .delim s.in_iter) := by
  induction s using run.induct with
  | case1 s s2 h =>
    rw [run_eq, h]
    simp only
    have hsim := (next_sim s).1
    rw [h] at hsim
    rcases hsim rfl with ⟨h1, h2⟩ | ⟨h1, h2⟩
    · rw [h1, hhe]
      simp [h2]
    · rw [h1]
      simp [h2]
  | case2 s w s2 h ih =>
    rw [run_eq, h]
    simp only
    have hhe2 : s2.had_error = false := by
      have := next_some_he s w s2 h
      rw [hhe] at this
      exact this
    have hsim := (next_sim s).2 w
    rw [h] at hsim
    rcases hsim rfl with h1 | ⟨h1, h2⟩
    · rw [ih hhe2, h1]
    · rw [run_empty s2 h1, hhe2]
      simp [h2]

/-- Continuation byte of UTF-8: 128 to 191. -/
def isCont (c : Nat) : Bool := 128 ≤ c ∧ c ≤ 191

/-- The RFC 3629 range of the second byte, which depends on the lead
byte (excluding overlong forms, surrogates and values above U+10FFFF). -/
def cont2OK (lead c2 : Nat) : Bool :=
  if lead = 224 then 160 ≤ c2 ∧ c2 ≤ 191
  else if lead = 237 then 128 ≤ c2 ∧ c2 ≤ 159
  else if lead = 240 then 144 ≤ c2 ∧ c2 ≤ 191
  else if lead = 244 then 128 ≤ c2 ∧ c2 ≤ 143
  else 128 ≤ c2 ∧ c2 ≤ 191

mutual

/-- RFC 3629 UTF-8 validity of a byte sequence: ASCII bytes stand
alone; a lead byte in 194 to 223 takes one continuation byte, 224 to
239 two, 240 to 244 three, with the second byte further restricted by
cont2OK; anything else is invalid. -/
def utf8Valid : List Nat → Bool
  | [] => true
  | c :: rest =>
    if c ≤ 127 then utf8Valid rest
    else if 194 ≤ c ∧ c ≤ 223 then utf8Tail1 c rest
    else if 224 ≤ c ∧ c ≤ 239 then utf8Tail2 c rest
    else if 240 ≤ c ∧ c ≤ 244 then utf8Tail3 c rest
    else false
termination_by l => (l.length, 1)

/-- One continuation byte expected (checked against the lead), then a
valid sequence. -/
def utf8Tail1 (lead : Nat) : List Nat → Bool
  | [] => false
  | c2 :: rest2 => cont2OK lead c2 && utf8Valid rest2
termination_by l => (l.length, 0)

/-- Two continuation bytes expected. -/
def utf8Tail2 (lead : Nat) : List Nat → Bool
  | [] => false
  | c2 :: rest2 => cont2OK lead c2 && utf8TailCont1 rest2
termination_by l => (l.length, 0)

/-- Three continuation bytes expected. -/
def utf8Tail3 (lead : Nat) : List Nat → Bool
  | [] => false
  | c2 :: rest2 => cont2OK lead c2 && utf8TailCont2 rest2
termination_by l => (l.length, 0)

/-- One plain continuation byte, then a valid sequence. -/
def utf8TailCont1 : List Nat → Bool
  | [] => false
  | c3 :: rest3 => isCont c3 && utf8Valid rest3
termination_by l => (l.length, 0)

/-- Two plain continuation bytes, then a valid sequence. -/
def utf8TailCont2 : List Nat → Bool
  | [] => false
  | c3 :: rest3 => isCont c3 && utf8TailCont1 rest3
termination_by l => (l.length, 0)

end

theorem utf8_cons_ascii (c : Nat) (l : List Nat) (h : c ≤ 127) :
    utf8Valid (c :: l) = utf8Valid l := by
  rw [utf8Valid.eq_def]
  simp [h]


theorem utf8_single_ascii (c : Nat) (h : c ≤ 127) :
    utf8Valid [c] = true := by
  rw [utf8_cons_ascii c [] h]
  rw [utf8Valid]

theorem cont2OK_bounds (lead c2 : Nat) (h : cont2OK lead c2 = true) :
    128 ≤ c2 ∧ c2 ≤ 191 := by
  simp only [cont2OK] at h
  split at h <;> try split at h
  all_goals first
    | (simp only [decide_eq_true_eq] at h; omega)
    | (split at h <;> first
        | (simp only [decide_eq_true_eq] at h; omega)
        | (split at h <;> simp only [decide_eq_true_eq] at h <;> omega))

theorem isCont_bounds (c : Nat) (h : isCont c = true) :
    128 ≤ c ∧ c ≤ 191 := by
  simpa [isCont] using h

/-- Splitting off one complete multi-byte character from a valid byte
sequence: the lead byte is followed by a nonempty run of continuation
bytes, the remainder is valid, and the character remains valid in front
of any valid tail. -/
theorem utf8_mb_split (c : Nat) (rest : List Nat) (hc : 128 ≤ c)
    (h : utf8Valid (c :: rest) = true) :
    ∃ cs rest2, rest = cs ++ rest2 ∧ cs ≠ [] ∧
      (∀ b ∈ cs, 128 ≤ b ∧ b ≤ 191) ∧ utf8Valid rest2 = true ∧
      ∀ t, utf8Valid t = true → utf8Valid (c :: (cs ++ t)) = true := by
  rw [utf8Valid.eq_def] at h
  simp only [if_neg (show ¬ c ≤ 127 by omega)] at h
  by_cases h1 : 194 ≤ c ∧ c ≤ 223
  · rw [if_pos h1] at h
    rcases rest with _ | ⟨c2, rest2⟩
    · simp [utf8Tail1] at h
    · simp only [utf8Tail1, Bool.and_eq_true] at h
      refine ⟨[c2], rest2, rfl, by simp, ?_, h.2, ?_⟩
      · intro b hb
        simp at hb
        rw [hb]
        exact cont2OK_bounds c c2 h.1
      · intro t ht
        rw [List.singleton_append, utf8Valid.eq_def]
        simp only [if_neg (show ¬ c ≤ 127 by omega), if_pos h1]
        simp [utf8Tail1, h.1, ht]
  rw [if_neg h1] at h
  by_cases h2 : 224 ≤ c ∧ c ≤ 239
  · rw [if_pos h2] at h
    rcases rest with _ | ⟨c2, _ | ⟨c3, rest3⟩⟩
    · simp [utf8Tail2] at h
    · simp [utf8Tail2, utf8TailCont1] at h
    · simp only [utf8Tail2, utf8TailCont1, Bool.and_eq_true] at h
      have h21 := h.1
      have h31 := h.2.1
      have hrest := h.2.2
      refine ⟨[c2, c3], rest3, rfl, by simp, ?_, hrest, ?_⟩
      · intro b hb
        simp at hb
        rcases hb with hb | hb <;> rw [hb]
        · exact cont2OK_bounds c c2 h21
        · exact isCont_bounds c3 h31
      · intro t ht
        rw [show [c2, c3] ++ t = c2 :: c3 :: t by simp]
        rw [utf8Valid.eq_def]
        simp only [if_neg (show ¬ c ≤ 127 by omega), if_neg h1, if_pos h2]
        simp [utf8Tail2, utf8TailCont1, h21, h31, ht]
  rw [if_neg h2] at h
  by_cases h3 : 240 ≤ c ∧ c ≤ 244
  · rw [if_pos h3] at h
    rcases rest with _ | ⟨c2, _ | ⟨c3, _ | ⟨c4, rest4⟩⟩⟩
    · simp [utf8Tail3] at h
    · simp [utf8Tail3, utf8TailCont2] at h
    · simp [utf8Tail3, utf8TailCont2, utf8TailCont1] at h
    · simp only [utf8Tail3, utf8TailCont2, utf8TailCont1, Bool.and_eq_true] at h
      have h21 := h.1
      have h31 := h.2.1
      have h41 := h.2.2.1
      have hrest := h.2.2.2
      refine ⟨[c2, c3, c4], rest4, rfl, by simp, ?_, hrest, ?_⟩
      · intro b hb
        simp at hb
        rcases hb with hb | hb | hb <;> rw [hb]
        · exact cont2OK_bounds c c2 h21
        · exact isCont_bounds c3 h31
        · exact isCont_bounds c4 h41
      · intro t ht
        rw [show [c2, c3, c4] ++ t = c2 :: c3 :: c4 :: t by simp]
        rw [utf8Valid.eq_def]
        simp only [if_neg (show ¬ c ≤ 127 by omega), if_neg h1, if_neg h2, if_pos h3]
        simp [utf8Tail3, utf8TailCont2, utf8TailCont1, h21, h31, h41, ht]
  rw [if_neg h3] at h
  simp at h

/-- Valid UTF-8 sequences are closed under concatenation. -/
theorem utf8_append_aux : ∀ n (a b : List Nat), a.length ≤ n →
    utf8Valid a = true → utf8Valid b = true → utf8Valid (a ++ b) = true := by
  intro n
  induction n with
  | zero =>
    intro a b hlen ha hb
    match a with
    | [] => simpa using hb
  | succ n ih =>
    intro a b hlen ha hb
    match a with
    | [] => simpa using hb
    | c :: rest =>
      by_cases hc : c ≤ 127
      · rw [utf8_cons_ascii c rest hc] at ha
        rw [List.cons_append, utf8_cons_ascii c _ hc]
        refine ih rest b ?_ ha hb
        simp at hlen
        omega
      · obtain ⟨cs, rest2, hre, _, _, hval2, hrecon⟩ :=
          utf8_mb_split c rest (by omega) ha
        subst hre
        have hlen2 : rest2.length ≤ n := by
          simp at hlen
          omega
        have hrec := hrecon (rest2 ++ b) (ih rest2 b hlen2 hval2 hb)
        calc utf8Valid ((c :: (cs ++ rest2)) ++ b)
            = utf8Valid (c :: (cs ++ (rest2 ++ b))) := by
              congr 1
              simp
          _ = true := hrec

theorem utf8_append (a b : List Nat) (ha : utf8Valid a = true)
    (hb : utf8Valid b = true) : utf8Valid (a ++ b) = true :=
  utf8_append_aux a.length a b le_rfl ha hb


theorem quoteBody_append (a b : List Nat) :
    quoteBody (a ++ b) = quoteBody a ++ quoteBody b := by
  simp [quoteBody]

theorem not_special_of_high (c : Nat) (h : 128 ≤ c) : ¬ isDqSpecial c = true := by
  simp only [isDqSpecial, decide_eq_true_eq]
  omega

theorem quoteBody_all_high (cs : List Nat) (h : ∀ b ∈ cs, 128 ≤ b) :
    quoteBody cs = cs := by
  induction cs with
  | nil => rfl
  | cons c cs ih =>
    have hc := not_special_of_high c (h c (by simp))
    simp only [quoteBody, List.flatMap_cons] at *
    rw [escByte, if_neg (by simpa using hc)]
    simp only [List.singleton_append, List.cons_inj_right]
    exact ih (fun b hb => h b (by simp [hb]))

theorem escByte_utf8 (c : Nat) (h : c ≤ 127) : utf8Valid (escByte c) = true := by
  rw [escByte]
  by_cases hs : isDqSpecial c
  · rw [if_pos hs]
    rw [utf8_cons_ascii 92 [c] (by omega), utf8_single_ascii c h]
  · rw [if_neg hs, utf8_single_ascii c h]

/-- quote's escaped body of a valid UTF-8 word is valid UTF-8: only
single ASCII backslashes are inserted, in front of ASCII bytes. -/
theorem utf8_quoteBody_aux : ∀ n (w : List Nat), w.length ≤ n →
    utf8Valid w = true → utf8Valid (quoteBody w) = true := by
  intro n
  induction n with
  | zero =>
    intro w hlen hw
    match w with
    | [] => simpa [quoteBody] using hw
  | succ n ih =>
    intro w hlen hw
    match w with
    | [] => simpa [quoteBody] using hw
    | c :: rest =>
      by_cases hc : c ≤ 127
      · rw [utf8_cons_ascii c rest hc] at hw
        have hbody : quoteBody (c :: rest) = escByte c ++ quoteBody rest := by
          simp [quoteBody]
        rw [hbody]
        refine utf8_append _ _ (escByte_utf8 c hc) (ih rest ?_ hw)
        simp at hlen
        omega
      · obtain ⟨cs, rest2, hre, _, hcs, hval2, hrecon⟩ :=
          utf8_mb_split c rest (by omega) hw
        subst hre
        have hbody : quoteBody (c :: (cs ++ rest2))
            = c :: (cs ++ quoteBody rest2) := by
          have h1 : quoteBody (c :: (cs ++ rest2))
              = escByte c ++ (quoteBody cs ++ quoteBody rest2) := by
            simp [quoteBody]
          rw [h1, escByte, if_neg (not_special_of_high c (by omega)),
            quoteBody_all_high cs (fun b hb => (hcs b hb).1)]
          simp
        rw [hbody]
        refine hrecon _ (ih rest2 ?_ hval2)
        simp at hlen
        omega

theorem utf8_quoteBody (w : List Nat) (hw : utf8Valid w = true) :
    utf8Valid (quoteBody w) = true :=
  utf8_quoteBody_aux w.length w le_rfl hw

/-- Encoding preservation of quote: quoting a valid UTF-8 word yields
valid UTF-8. -/
theorem quote_utf8 (w : List Nat) (h : utf8Valid w = true) :
    utf8Valid (quote w) = true := by
  by_cases h0 : w = []
  · subst h0
    have hq : quote [] = [34, 34] := by rw [quote]; simp
    rw [hq, utf8_cons_ascii 34 [34] (by omega), utf8_single_ascii 34 (by omega)]
  by_cases hm : w.any isMeta
  · rw [quote_of_meta w h0 hm]
    rw [utf8_cons_ascii 34 _ (by omega)]
    exact utf8_append _ _ (utf8_quoteBody w h) (utf8_single_ascii 34 (by omega))
  · rw [quote_of_safe w h0 (by simpa using hm)]
    exact h

theorem parse_double_run (cs : List Nat) (h : ∀ c ∈ cs, c ≠ 34 ∧ c ≠ 92)
    (rest : List Nat) (ln : Nat) (he : Bool) (r : List Nat) :
    parse_double ⟨cs ++ rest, ln, he⟩ r
      = parse_double ⟨rest, ln + cs.count 10, he⟩ (r ++ cs) := by
  induction cs generalizing ln r with
  | nil => simp
  | cons c cs ih =>
    obtain ⟨h34, h92⟩ := h c (by simp)
    have htail : ∀ x ∈ cs, x ≠ 34 ∧ x ≠ 92 := fun x hx => h x (by simp [hx])
    rw [List.cons_append, parse_double.eq_def]
    simp only [if_neg h92, if_neg h34]
    rw [ih htail]
    rw [bump_count c ln cs]
    simp

theorem consume_comment_run (cs : List Nat) (h : ∀ c ∈ cs, c ≠ 10)
    (rest : List Nat) (ln : Nat) (he : Bool) :
    consume_comment ⟨cs ++ rest, ln, he⟩ = consume_comment ⟨rest, ln, he⟩ := by
  induction cs with
  | nil => simp
  | cons c cs ih =>
    have hc := h c (by simp)
    have htail : ∀ x ∈ cs, x ≠ 10 := fun x hx => h x (by simp [hx])
    rw [List.cons_append, consume_comment.eq_def]
    simp only [if_neg hc]
    rw [bump_ne c ln hc]
    exact ih htail

theorem high_ne_ascii (b : Nat) (hb : 128 ≤ b) (a : Nat) (ha : a ≤ 127) :
    b ≠ a := by omega

/-- A word yielded by parse_single from valid UTF-8 input, onto a valid
accumulator, is valid, and so is the remaining input. -/
theorem utf8_parse_single : ∀ n (s : Shlex) (r : List Nat),
    s.in_iter.length ≤ n →
    utf8Valid s.in_iter = true → utf8Valid r = true →
    ∀ w, (parse_single s r).1 = some w →
      utf8Valid w = true ∧ utf8Valid (parse_single s r).2.in_iter = true := by
  intro n
  induction n with
  | zero =>
    intro s r hlen hin hr w hw
    rcases s with ⟨i, ln, he⟩
    match i, hlen with
    | [], _ =>
      rw [parse_single.eq_def] at hw
      simp at hw
  | succ n ih =>
    intro s r hlen hin hr w hw
    rcases s with ⟨i, ln, he⟩
    simp only at hlen hin hw ⊢
    rcases i with _ | ⟨c, rest⟩
    · rw [parse_single.eq_def] at hw
      simp at hw
    · by_cases c39 : c = 39
      · subst c39
        rw [parse_single.eq_def] at hw ⊢
        simp only [if_pos rfl] at hw ⊢
        simp at hw
        rw [utf8_cons_ascii 39 rest (by omega)] at hin
        subst hw
        exact ⟨hr, hin⟩
      · by_cases hc : c ≤ 127
        · rw [parse_single.eq_def] at hw ⊢
          simp only [if_neg c39] at hw ⊢
          rw [utf8_cons_ascii c rest hc] at hin
          refine ih ⟨rest, bump c ln, he⟩ (r ++ [c]) ?_ hin ?_ w hw
          · simp at hlen ⊢
            omega
          · exact utf8_append r [c] hr (utf8_single_ascii c hc)
        · obtain ⟨cs, rest2, hre, _, hcs, hval2, hrecon⟩ :=
            utf8_mb_split c rest (by omega) hin
          subst hre
          rw [parse_single.eq_def] at hw ⊢
          simp only [if_neg c39] at hw ⊢
          have hcs39 : ∀ x ∈ cs, x ≠ 39 :=
            fun x hx => high_ne_ascii x (hcs x hx).1 39 (by omega)
          rw [parse_single_run cs hcs39] at hw ⊢
          have hrc : (r ++ [c]) ++ cs = r ++ (c :: cs) := by simp
          rw [hrc] at hw ⊢
          have hchar : utf8Valid (c :: cs) = true := by
            have := hrecon [] (by rw [utf8Valid])
            simpa using this
          refine ih ⟨rest2, bump c ln + cs.count 10, he⟩ (r ++ (c :: cs))
            ?_ hval2 ?_ w hw
          · simp at hlen ⊢
            omega
          · exact utf8_append r (c :: cs) hr hchar

/-- A word yielded by parse_double from valid UTF-8 input, onto a valid
accumulator, is valid, and so is the remaining input. -/
theorem utf8_parse_double : ∀ n (s : Shlex) (r : List Nat),
    s.in_iter.length ≤ n →
    utf8Valid s.in_iter = true → utf8Valid r = true →
    ∀ w, (parse_double s r).1 = some w →
      utf8Valid w = true ∧ utf8Valid (parse_double s r).2.in_iter = true := by
  intro n
  induction n with
  | zero =>
    intro s r hlen hin hr w hw
    rcases s with ⟨i, ln, he⟩
    match i, hlen with
    | [], _ =>
      rw [parse_double.eq_def] at hw
      simp at hw
  | succ n ih =>
    intro s r hlen hin hr w hw
    rcases s with ⟨i, ln, he⟩
    simp only at hlen hin hw ⊢
    rcases i with _ | ⟨c, rest⟩
    · rw [parse_double.eq_def] at hw
      simp at hw
    · by_cases h92 : c = 92
      · subst h92
        rcases rest with _ | ⟨c3, rest2⟩
        · rw [parse_double.eq_def] at hw
          simp at hw
        · rw [utf8_cons_ascii 92 _ (by omega)] at hin
          rw [parse_double.eq_def] at hw ⊢
          simp only [if_pos rfl] at hw ⊢
          by_cases hsp : c3 = 36 ∨ c3 = 96 ∨ c3 = 34 ∨ c3 = 92
          · rw [if_pos hsp] at hw ⊢
            have hc3a : c3 ≤ 127 := by rcases hsp with h | h | h | h <;> omega
            rw [utf8_cons_ascii c3 rest2 hc3a] at hin
            refine ih ⟨rest2, bump c3 (bump 92 ln), he⟩ (r ++ [c3])
              ?_ hin ?_ w hw
            · simp at hlen ⊢
              omega
            · exact utf8_append r [c3] hr (utf8_single_ascii c3 hc3a)
          · rw [if_neg hsp] at hw ⊢
            by_cases h10 : c3 = 10
            · rw [if_pos h10] at hw ⊢
              subst h10
              rw [utf8_cons_ascii 10 rest2 (by omega)] at hin
              refine ih ⟨rest2, bump 10 (bump 92 ln), he⟩ r ?_ hin hr w hw
              simp at hlen ⊢
              omega
            · rw [if_neg h10] at hw ⊢
              by_cases hc3 : c3 ≤ 127
              · rw [utf8_cons_ascii c3 rest2 hc3] at hin
                refine ih ⟨rest2, bump c3 (bump 92 ln), he⟩ (r ++ [92, c3])
                  ?_ hin ?_ w hw
                · simp at hlen ⊢
                  omega
                · refine utf8_append r [92, c3] hr ?_
                  rw [utf8_cons_ascii 92 [c3] (by omega), utf8_single_ascii c3 hc3]
              · obtain ⟨cs, rest3, hre, _, hcs, hval3, hrecon⟩ :=
                  utf8_mb_split c3 rest2 (by omega) hin
                subst hre
                have hcsok : ∀ x ∈ cs, x ≠ 34 ∧ x ≠ 92 := fun x hx =>
                  ⟨high_ne_ascii x (hcs x hx).1 34 (by omega),
                   high_ne_ascii x (hcs x hx).1 92 (by omega)⟩
                rw [parse_double_run cs hcsok] at hw ⊢
                have hrc : (r ++ [92, c3]) ++ cs = (r ++ [92]) ++ (c3 :: cs) := by
                  simp
                rw [hrc] at hw ⊢
                have hchar : utf8Valid (c3 :: cs) = true := by
                  have := hrecon [] (by rw [utf8Valid])
                  simpa using this
                refine ih ⟨rest3, bump c3 (bump 92 ln) + cs.count 10, he⟩
                  ((r ++ [92]) ++ (c3 :: cs)) ?_ hval3 ?_ w hw
                · simp at hlen ⊢
                  omega
                · refine utf8_append _ _ ?_ hchar
                  exact utf8_append r [92] hr (utf8_single_ascii 92 (by omega))
      · by_cases h34 : c = 34
        · subst h34
          rw [parse_double.eq_def] at hw ⊢
          simp only [if_neg (show ¬(34 : Nat) = 92 by omega), if_pos rfl] at hw ⊢
          simp at hw
          rw [utf8_cons_ascii 34 rest (by omega)] at hin
          subst hw
          exact ⟨hr, hin⟩
        · by_cases hc : c ≤ 127
          · rw [parse_double.eq_def] at hw ⊢
            simp only [if_neg h92, if_neg h34] at hw ⊢
            rw [utf8_cons_ascii c rest hc] at hin
            refine ih ⟨rest, bump c ln, he⟩ (r ++ [c]) ?_ hin ?_ w hw
            · simp at hlen ⊢
              omega
            · exact utf8_append r [c] hr (utf8_single_ascii c hc)
          · obtain ⟨cs, rest2, hre, _, hcs, hval2, hrecon⟩ :=
              utf8_mb_split c rest (by omega) hin
            subst hre
            rw [parse_double.eq_def] at hw ⊢
            simp only [if_neg h92, if_neg h34] at hw ⊢
            have hcsok : ∀ x ∈ cs, x ≠ 34 ∧ x ≠ 92 := fun x hx =>
              ⟨high_ne_ascii x (hcs x hx).1 34 (by omega),
               high_ne_ascii x (hcs x hx).1 92 (by omega)⟩
            rw [parse_double_run cs hcsok] at hw ⊢
            have hrc : (r ++ [c]) ++ cs = r ++ (c :: cs) := by simp
            rw [hrc] at hw ⊢
            have hchar : utf8Valid (c :: cs) = true := by
              have := hrecon [] (by rw [utf8Valid])
              simpa using this
            refine ih ⟨rest2, bump c ln + cs.count 10, he⟩ (r ++ (c :: cs))
              ?_ hval2 ?_ w hw
            · simp at hlen ⊢
              omega
            · exact utf8_append r (c :: cs) hr hchar

theorem parse_word_quoted_some (r2 : List Nat) (s2 : Shlex) :
    parse_word_quoted (some r2, s2) = parse_word_cont s2 r2 := by
  rw [parse_word_quoted.eq_def]

theorem parse_word_quoted_none (s2 : Shlex) :
    parse_word_quoted (none, s2) = (none, { s2 with had_error := true }) := by
  rw [parse_word_quoted.eq_def]

theorem high_plain (c : Nat) (h : 128 ≤ c) : isWordPlain c := by
  simp only [isWordPlain, decide_eq_true_eq]
  omega

/-- A word yielded by the word loop from valid UTF-8 input is valid,
and so is the remaining input. The first component covers parse_word
with its already-fetched current byte, the second parse_word_cont. -/
theorem utf8_parse_word_aux : ∀ n,
    (∀ (s : Shlex) (ch : Nat) (r : List Nat), s.in_iter.length + 1 ≤ n →
      utf8Valid (ch :: s.in_iter) = true → utf8Valid r = true →
      ∀ w, (parse_word s ch r).1 = some w →
        utf8Valid w = true ∧ utf8Valid (parse_word s ch r).2.in_iter = true) ∧
    (∀ (s : Shlex) (r : List Nat), s.in_iter.length ≤ n →
      utf8Valid s.in_iter = true → utf8Valid r = true →
      ∀ w, (parse_word_cont s r).1 = some w →
        utf8Valid w = true ∧ utf8Valid (parse_word_cont s r).2.in_iter = true) := by
  intro n
  induction n with
  | zero =>
    constructor
    · intro s ch r hlen
      omega
    · intro s r hlen hin hr w hw
      rcases s with ⟨i, ln, he⟩
      simp only at hlen hw ⊢
      match i, hlen with
      | [], _ =>
        rw [parse_word_cont_nil] at hw ⊢
        simp at hw
        subst hw
        exact ⟨hr, by rw [utf8Valid]⟩
  | succ n ihn =>
    have hA : ∀ (s : Shlex) (ch : Nat) (r : List Nat), s.in_iter.length + 1 ≤ n + 1 →
        utf8Valid (ch :: s.in_iter) = true → utf8Valid r = true →
        ∀ w, (parse_word s ch r).1 = some w →
          utf8Valid w = true ∧ utf8Valid (parse_word s ch r).2.in_iter = true := by
      intro s ch r hlen hin hr w hw
      rcases s with ⟨i, ln, he⟩
      simp only at hlen hin hw ⊢
      by_cases h34 : ch = 34
      · subst h34
        rw [utf8_cons_ascii 34 i (by omega)] at hin
        rw [parse_word_dq] at hw ⊢
        rcases hpd : parse_double ⟨i, ln, he⟩ r with ⟨o, s2⟩
        rcases o with _ | r2
        · rw [hpd, parse_word_quoted_none] at hw
          simp at hw
        · have hdl := parse_double_le ⟨i, ln, he⟩ r
          rw [hpd] at hdl
          have hpd2 := utf8_parse_double i.length ⟨i, ln, he⟩ r le_rfl hin hr r2
            (by rw [hpd])
          rw [hpd] at hpd2
          simp only at hpd2 hdl
          rw [parse_word_quoted_some]
          refine ihn.2 s2 r2 ?_ hpd2.2 hpd2.1 w ?_
          · omega
          · rw [hpd, parse_word_quoted_some] at hw
            exact hw
      · by_cases h39 : ch = 39
        · subst h39
          rw [utf8_cons_ascii 39 i (by omega)] at hin
          rw [parse_word_sq] at hw ⊢
          rcases hps : parse_single ⟨i, ln, he⟩ r with ⟨o, s2⟩
          rcases o with _ | r2
          · rw [hps, parse_word_quoted_none] at hw
            simp at hw
          · have hdl := parse_single_le ⟨i, ln, he⟩ r
            rw [hps] at hdl
            have hps2 := utf8_parse_single i.length ⟨i, ln, he⟩ r le_rfl hin hr r2
              (by rw [hps])
            rw [hps] at hps2
            simp only at hps2 hdl
            rw [parse_word_quoted_some]
            refine ihn.2 s2 r2 ?_ hps2.2 hps2.1 w ?_
            · omega
            · rw [hps, parse_word_quoted_some] at hw
              exact hw
        · by_cases h92 : ch = 92
          · subst h92
            rw [utf8_cons_ascii 92 i (by omega)] at hin
            rcases i with _ | ⟨c2, rest⟩
            · rw [parse_word_esc_nil] at hw
              simp at hw
            · rw [parse_word_esc_cons] at hw ⊢
              by_cases h10 : c2 = 10
              · rw [if_pos h10] at hw ⊢
                subst h10
                rw [utf8_cons_ascii 10 rest (by omega)] at hin
                refine ihn.2 ⟨rest, bump 10 ln, he⟩ r ?_ hin hr w hw
                simp at hlen ⊢
                omega
              · rw [if_neg h10] at hw ⊢
                by_cases hc2 : c2 ≤ 127
                · rw [utf8_cons_ascii c2 rest hc2] at hin
                  refine ihn.2 ⟨rest, bump c2 ln, he⟩ (r ++ [c2]) ?_ hin ?_ w hw
                  · simp at hlen ⊢
                    omega
                  · exact utf8_append r [c2] hr (utf8_single_ascii c2 hc2)
                · obtain ⟨cs, rest2, hre, _, hcs, hval2, hrecon⟩ :=
                    utf8_mb_split c2 rest (by omega) hin
                  subst hre
                  have hcspl : ∀ x ∈ cs, isWordPlain x :=
                    fun x hx => high_plain x (hcs x hx).1
                  rw [parse_word_cont_run cs hcspl] at hw ⊢
                  have hrc : (r ++ [c2]) ++ cs = r ++ (c2 :: cs) := by simp
                  rw [hrc] at hw ⊢
                  have hchar : utf8Valid (c2 :: cs) = true := by
                    have := hrecon [] (by rw [utf8Valid])
                    simpa using this
                  refine ihn.2 ⟨rest2, bump c2 ln, he⟩ (r ++ (c2 :: cs))
                    ?_ hval2 ?_ w hw
                  · simp at hlen ⊢
                    omega
                  · exact utf8_append r (c2 :: cs) hr hchar
          · by_cases hws : ch = 32 ∨ ch = 9 ∨ ch = 10
            · rw [parse_word_ws _ _ _ hws] at hw ⊢
              simp at hw
              subst hw
              have hcha : ch ≤ 127 := by rcases hws with h | h | h <;> omega
              rw [utf8_cons_ascii ch i hcha] at hin
              exact ⟨hr, hin⟩
            · have hpl : isWordPlain ch := by
                simp only [isWordPlain, decide_eq_true_eq]
                tauto
              rw [parse_word_plain _ _ _ hpl] at hw ⊢
              by_cases hcha : ch ≤ 127
              · rw [utf8_cons_ascii ch i hcha] at hin
                refine ihn.2 ⟨i, ln, he⟩ (r ++ [ch]) ?_ hin ?_ w hw
                · simp only
                  omega
                · exact utf8_append r [ch] hr (utf8_single_ascii ch hcha)
              · obtain ⟨cs, rest2, hre, _, hcs, hval2, hrecon⟩ :=
                  utf8_mb_split ch i (by omega) hin
                subst hre
                have hcspl : ∀ x ∈ cs, isWordPlain x :=
                  fun x hx => high_plain x (hcs x hx).1
                rw [parse_word_cont_run cs hcspl] at hw ⊢
                have hrc : (r ++ [ch]) ++ cs = r ++ (ch :: cs) := by simp
                rw [hrc] at hw ⊢
                have hchar : utf8Valid (ch :: cs) = true := by
                  have := hrecon [] (by rw [utf8Valid])
                  simpa using this
                refine ihn.2 ⟨rest2, ln, he⟩ (r ++ (ch :: cs)) ?_ hval2 ?_ w hw
                · simp at hlen ⊢
                  omega
                · exact utf8_append r (ch :: cs) hr hchar
    refine ⟨hA, ?_⟩
    intro s r hlen hin hr w hw
    rcases s with ⟨i, ln, he⟩
    simp only at hlen hin hw ⊢
    rcases i with _ | ⟨c, rest⟩
    · rw [parse_word_cont_nil] at hw ⊢
      simp at hw
      subst hw
      exact ⟨hr, by rw [utf8Valid]⟩
    · rw [parse_word_cont_cons] at hw ⊢
      refine hA ⟨rest, bump c ln, he⟩ c r ?_ hin hr w hw
      simpa using hlen

/-- Skipping a comment from valid UTF-8 input leaves valid input: the
loop stops right after an ASCII newline. -/
theorem utf8_consume_comment : ∀ n (s : Shlex), s.in_iter.length ≤ n →
    utf8Valid s.in_iter = true →
    utf8Valid (consume_comment s).in_iter = true := by
  intro n
  induction n with
  | zero =>
    intro s hlen hin
    rcases s with ⟨i, ln, he⟩
    match i, hlen with
    | [], _ =>
      rw [consume_comment.eq_def]
      exact hin
  | succ n ih =>
    intro s hlen hin
    rcases s with ⟨i, ln, he⟩
    simp only at hlen hin ⊢
    rcases i with _ | ⟨c, rest⟩
    · rw [consume_comment.eq_def]
      exact hin
    · by_cases h10 : c = 10
      · subst h10
        rw [consume_comment_cons10]
        rw [utf8_cons_ascii 10 rest (by omega)] at hin
        exact hin
      · by_cases hc : c ≤ 127
        · rw [consume_comment.eq_def]
          simp only [if_neg h10]
          rw [utf8_cons_ascii c rest hc] at hin
          refine ih ⟨rest, bump c ln, he⟩ ?_ hin
          simp at hlen ⊢
          omega
        · obtain ⟨cs, rest2, hre, _, hcs, hval2, _⟩ :=
            utf8_mb_split c rest (by omega) hin
          subst hre
          rw [consume_comment.eq_def]
          simp only [if_neg h10]
          have hcs10 : ∀ x ∈ cs, x ≠ 10 :=
            fun x hx => high_ne_ascii x (hcs x hx).1 10 (by omega)
          rw [consume_comment_run cs hcs10]
          refine ih ⟨rest2, bump c ln, he⟩ ?_ hval2
          simp at hlen ⊢
          omega

/-- The skip phase hands over a word-starting byte with the input still
valid UTF-8 from that byte on. -/
theorem utf8_skip_ws_pair :
    (∀ s ch, utf8Valid (ch :: s.in_iter) = true →
      ∀ c2, (skip_ws s ch).1 = some c2 →
        utf8Valid (c2 :: (skip_ws s ch).2.in_iter) = true) ∧
    (∀ s, utf8Valid s.in_iter = true →
      ∀ c2, (skip_ws_step s).1 = some c2 →
        utf8Valid (c2 :: (skip_ws_step s).2.in_iter) = true) := by
  refine skip_ws.mutual_induct
    (fun s ch => utf8Valid (ch :: s.in_iter) = true →
      ∀ c2, (skip_ws s ch).1 = some c2 →
        utf8Valid (c2 :: (skip_ws s ch).2.in_iter) = true)
    (fun s => utf8Valid s.in_iter = true →
      ∀ c2, (skip_ws_step s).1 = some c2 →
        utf8Valid (c2 :: (skip_ws_step s).2.in_iter) = true)
    ?_ ?_ ?_ ?_ ?_
  · intro s ch hws ih hin c2 hc2
    rw [skip_ws.eq_def, if_pos hws] at hc2 ⊢
    have hcha : ch ≤ 127 := by rcases hws with h | h | h <;> omega
    rw [utf8_cons_ascii ch _ hcha] at hin
    exact ih hin c2 hc2
  · intro s h35 ih hin c2 hc2
    rw [skip_ws.eq_def, if_neg h35, if_pos rfl] at hc2 ⊢
    rw [utf8_cons_ascii 35 _ (by omega)] at hin
    have hcc := utf8_consume_comment s.in_iter.length s le_rfl hin
    exact ih hcc c2 hc2
  · intro s ch hws h35 hin c2 hc2
    rw [skip_ws.eq_def, if_neg hws, if_neg h35] at hc2 ⊢
    simp at hc2
    subst hc2
    exact hin
  · intro ln he hin c2 hc2
    rw [skip_ws_step_nil] at hc2
    simp at hc2
  · intro c rest ln he ih hin c2 hc2
    rw [skip_ws_step.eq_def] at hc2 ⊢
    exact ih hin c2 hc2

/-- A word yielded by one pull of the tokenizer from valid UTF-8 input
is valid UTF-8, and the remaining input is still valid. -/
theorem utf8_next (s : Shlex) (hin : utf8Valid s.in_iter = true)
    (w : List Nat) (hw : (next s).1 = some w) :
    utf8Valid w = true ∧ utf8Valid (next s).2.in_iter = true := by
  rcases s with ⟨i, ln, he⟩
  simp only at hin hw ⊢
  rcases i with _ | ⟨c, rest⟩
  · rw [next_nil] at hw
    simp at hw
  · simp only [next, next_char] at hw ⊢
    rcases hsk : skip_ws ⟨rest, bump c ln, he⟩ c with ⟨o, s2⟩
    rcases o with _ | c2
    · rw [hsk] at hw
      simp at hw
    · have hvalid := utf8_skip_ws_pair.1 ⟨rest, bump c ln, he⟩ c hin c2
        (by rw [hsk])
      rw [hsk] at hvalid hw
      simp only at hvalid
      exact (utf8_parse_word_aux (s2.in_iter.length + 1)).1 s2 c2 []
        le_rfl hvalid (by rw [utf8Valid]) w hw

/-- Every word collected by a full run of the tokenizer on valid UTF-8
input is valid UTF-8. -/
theorem utf8_run (s : Shlex) (hin : utf8Valid s.in_iter = true) :
    ∀ w ∈ (run s).1, utf8Valid w = true := by
  induction s using run.induct with
  | case1 s s2 h =>
    rw [run_eq, h]
    intro w hw
    simp at hw
  | case2 s w2 s2 h ih =>
    rw [run_eq, h]
    simp only
    intro w hw
    have hn := utf8_next s hin w2 (by rw [h])
    rw [h] at hn
    simp only at hn
    rcases List.mem_cons.mp hw with hmem | hmem
    · rw [hmem]
      exact hn.1
    · exact ih hn.2 w hmem

/-- A pull never clears the error flag. -/
theorem next_he_mono (s : Shlex) (h : s.had_error = true) :
    (next s).2.had_error = true := by
  rcases s with ⟨i, ln, he⟩
  simp only at h
  subst h
  rcases i with _ | ⟨c, rest⟩
  · rw [next_nil]
  · simp only [next, next_char]
    have hsk := skip_ws_he_pair.1 ⟨rest, bump c ln, true⟩ c
    rcases hw : skip_ws ⟨rest, bump c ln, true⟩ c with ⟨o, s2⟩
    rw [hw] at hsk
    rcases o with _ | ch2
    · exact hsk
    · have hword := parse_word_he_tri.1 s2 ch2 []
      rw [hword, hsk]
      simp

/-- When a pull reports end of sequence, the input is exhausted. -/
theorem next_none_empty (s : Shlex) (h : (next s).1 = none) :
    (next s).2.in_iter = [] := by
  rcases s with ⟨i, ln, he⟩
  rcases i with _ | ⟨c, rest⟩
  · rw [next_nil]
  · simp only [next, next_char] at h ⊢
    rcases hw : skip_ws ⟨rest, bump c ln, he⟩ c with ⟨o, s2⟩
    have hsk := skip_ws_none_empty_pair.1 ⟨rest, bump c ln, he⟩ c
    rw [hw] at hsk h
    rcases o with _ | ch2
    · exact hsk rfl
    · exact parse_word_none_empty_tri.1 s2 ch2 [] h

theorem next_of_empty (s : Shlex) (h : s.in_iter = []) : next s = (none, s) := by
  rcases s with ⟨i, ln, he⟩
  simp only at h
  subst h
  rw [next_nil]

/-- A full run always exhausts the input. -/
theorem run_in_iter_nil (s : Shlex) : (run s).2.in_iter = [] := by
  induction s using run.induct with
  | case1 s s2 h =>
    rw [run_eq, h]
    have := next_none_empty s (by rw [h])
    rw [h] at this
    exact this
  | case2 s w s2 h ih =>
    rw [run_eq, h]
    exact ih

/-- The final line number of a full run is one plus the total newline
count of the input. -/
theorem run_line_final (l : List Nat) :
    (run (Shlex.new l)).2.line_no = 1 + l.count 10 := by
  have h1 := run_ln (Shlex.new l)
  rw [lnTotal, lnTotal, run_in_iter_nil] at h1
  simpa [Shlex.new] using h1

/-- A hash at token-start position opens a comment: everything through
the next newline is consumed without being emitted, and tokenization
resumes after it (the newline still counts for line_no). -/
theorem next_comment (c rest : List Nat) (ln : Nat) (he : Bool)
    (h : ∀ x ∈ c, x ≠ 10) :
    next ⟨35 :: (c ++ 10 :: rest), ln, he⟩ = next ⟨rest, ln + 1, he⟩ := by
  simp only [next, next_char]
  rw [skip_ws.eq_def, if_neg (by decide), if_pos rfl]
  rw [bump_ne 35 ln (by omega)]
  rw [consume_comment_run c h, consume_comment_cons10, bump_10]
  rcases rest with _ | ⟨c2, tail⟩
  · rw [skip_ws_step_nil]
  · rw [skip_ws_step.eq_def]

/-- A comment with no following newline consumes the rest of the input
and the sequence ends without a word and without an error. -/
theorem next_comment_eoi (c : List Nat) (ln : Nat) (he : Bool)
    (h : ∀ x ∈ c, x ≠ 10) :
    next ⟨35 :: c, ln, he⟩ = (none, ⟨[], ln, he⟩) := by
  simp only [next, next_char]
  rw [skip_ws.eq_def, if_neg (by decide), if_pos rfl]
  rw [bump_ne 35 ln (by omega)]
  rw [show (c : List Nat) = c ++ [] by simp]
  rw [consume_comment_run c h]
  rw [consume_comment.eq_def]
  rw [skip_ws_step_nil]

/-- A nonempty word with no metacharacter splits to itself alone. -/
theorem split_no_meta (w : List Nat) (h0 : w ≠ []) (hm : w.any isMeta = false) :
    split w = some [w] := by
  have h1 := next_word_last w 1
  rw [quote_of_safe w h0 hm] at h1
  have h2 : run (Shlex.new w) = ([w], ⟨[], 1 + w.count 10, false⟩) := by
    rw [Shlex.new, run_eq, h1]
    simp only
    rw [run_empty ⟨[], 1 + w.count 10, false⟩ rfl]
  simp [split, h2]

/-- C1: Round-trip. For every finite ordered sequence of byte-string
words (bytes below 256) in which no word contains a null byte,
split (join words) returns successfully and yields exactly that
sequence of words, in order. -/
theorem claim_C1 (ws : List (List Nat))
    (h : ∀ w ∈ ws, ∀ c ∈ w, c < 256 ∧ c ≠ 0) :
    split (join ws) = some ws := by
  have h1 := run_join ws 1
  simp [split, Shlex.new, h1.1, h1.2]

/-- Witness for C1 at a concrete word list containing a plain word, a
word with a space, and an empty word. -/
theorem claim_C1_witness :
    (∀ w ∈ [[102, 111, 111], [97, 32, 98], ([] : List Nat)],
      ∀ c ∈ w, c < 256 ∧ c ≠ 0) ∧
    split (join [[102, 111, 111], [97, 32, 98], []])
      = some [[102, 111, 111], [97, 32, 98], []] :=
  ⟨by decide, claim_C1 [[102, 111, 111], [97, 32, 98], []] (by decide)⟩

/-- C2: split fails exactly when the scan ends with had_error set, and
that happens exactly on the inputs the specification scanner classifies
as malformed (ending inside an open double quote, inside an open single
quote, or right after an unescaped trailing backslash); every other
input, null bytes and invalid encodings included, yields the full
ordered word list. -/
theorem claim_C2 (l : List Nat) :
    (split l = none ↔ (run (Shlex.new l)).2.had_error = true) ∧
    (split l = none ↔ malformedSpec l = true) ∧
    (∀ ws, split l = some ws → ws = (run (Shlex.new l)).1) := by
  have hiff : split l = none ↔ (run (Shlex.new l)).2.had_error = true := by
    by_cases h : (run (Shlex.new l)).2.had_error <;> simp [split, h]
  refine ⟨hiff, hiff.trans ?_, ?_⟩
  · rw [malformedSpec_iff]
    exact run_err_iff (Shlex.new l) rfl
  · intro ws hws
    by_cases h : (run (Shlex.new l)).2.had_error <;> simp [split, h] at hws
    exact hws.symm

/-- C3: quote of the empty byte sequence is two double-quote bytes, and
quote of any nonempty word containing a metacharacter is the word
wrapped in double quotes with a backslash pushed before each dollar,
backtick, double quote or backslash, all other bytes copied through
unescaped. -/
theorem claim_C3 :
    quote [] = [34, 34] ∧
    ∀ w : List Nat, w ≠ [] → w.any isMeta = true →
      quote w = 34 :: (w.flatMap (fun c =>
        if c = 36 ∨ c = 96 ∨ c = 34 ∨ c = 92 then [92, c] else [c]) ++ [34]) := by
  constructor
  · rw [quote]
    simp
  · intro w h0 hm
    rw [quote_of_meta w h0 hm]
    have hesc : ∀ c : Nat, escByte c =
        if c = 36 ∨ c = 96 ∨ c = 34 ∨ c = 92 then [92, c] else [c] := by
      intro c
      by_cases h : c = 36 ∨ c = 96 ∨ c = 34 ∨ c = 92 <;>
        simp [escByte, isDqSpecial, h]
    have hfun : escByte = fun c =>
        if c = 36 ∨ c = 96 ∨ c = 34 ∨ c = 92 then [92, c] else [c] :=
      funext hesc
    simp [quoteBody, hfun]

/-- Witness for C3 at the one-byte word consisting of a space. -/
theorem claim_C3_witness :
    ([32] ≠ ([] : List Nat)) ∧ ([32].any isMeta = true) ∧
    quote [32] = 34 :: ([32].flatMap (fun c =>
      if c = 36 ∨ c = 96 ∨ c = 34 ∨ c = 92 then [92, c] else [c]) ++ [34]) :=
  ⟨by decide, by decide, claim_C3.2 [32] (by decide) (by decide)⟩

/-- C4: Encoding preservation of quote: for every input byte sequence
that is valid UTF-8, the output of quote is also valid UTF-8. -/
theorem claim_C4 (w : List Nat) (h : utf8Valid w = true) :
    utf8Valid (quote w) = true :=
  quote_utf8 w h

/-- Witness for C4 at a word containing a two-byte character and a
space (so the quoted branch is taken). -/
theorem claim_C4_witness :
    utf8Valid [99, 97, 102, 195, 169, 32] = true ∧
    utf8Valid (quote [99, 97, 102, 195, 169, 32]) = true :=
  ⟨by simp [utf8Valid, utf8Tail1, utf8Tail2, utf8Tail3, utf8TailCont1,
      utf8TailCont2, isCont, cont2OK],
   claim_C4 [99, 97, 102, 195, 169, 32]
     (by simp [utf8Valid, utf8Tail1, utf8Tail2, utf8Tail3, utf8TailCont1,
       utf8TailCont2, isCont, cont2OK])⟩

/-- C5: for every input byte sequence that is valid UTF-8, every word
yielded by the byte-level tokenizer is itself valid UTF-8 (both the
words collected by a full run, and the words of a successful split). -/
theorem claim_C5 (l : List Nat) (h : utf8Valid l = true) :
    (∀ w ∈ (run (Shlex.new l)).1, utf8Valid w = true) ∧
    (∀ ws, split l = some ws → ∀ w ∈ ws, utf8Valid w = true) := by
  have h1 : ∀ w ∈ (run (Shlex.new l)).1, utf8Valid w = true :=
    utf8_run (Shlex.new l) h
  refine ⟨h1, ?_⟩
  intro ws hws
  by_cases hhe : (run (Shlex.new l)).2.had_error <;> simp [split, hhe] at hws
  rw [← hws]
  exact h1

/-- Witness for C5 at a two-word input whose first word is a two-byte
character. -/
theorem claim_C5_witness :
    utf8Valid [195, 169, 32, 98] = true ∧
    (∀ w ∈ (run (Shlex.new [195, 169, 32, 98])).1, utf8Valid w = true) :=
  ⟨by simp [utf8Valid, utf8Tail1, utf8Tail2, utf8Tail3, utf8TailCont1,
      utf8TailCont2, isCont, cont2OK],
   (claim_C5 [195, 169, 32, 98]
     (by simp [utf8Valid, utf8Tail1, utf8Tail2, utf8Tail3, utf8TailCont1,
       utf8TailCont2, isCont, cont2OK])).1⟩

/-- C6: the error flag starts false, is monotonic (a pull never clears
it), and when a pull sets it the pull yielded no word (the word under
construction is discarded), the input is exhausted, and every
subsequent pull returns end of sequence with the state unchanged. -/
theorem claim_C6 :
    (∀ l, (Shlex.new l).had_error = false) ∧
    (∀ s : Shlex, s.had_error = true → (next s).2.had_error = true) ∧
    (∀ s : Shlex, s.had_error = false → (next s).2.had_error = true →
      (next s).1 = none ∧ (next s).2.in_iter = [] ∧
      next (next s).2 = (none, (next s).2)) := by
  refine ⟨fun l => rfl, fun s h => next_he_mono s h, ?_⟩
  intro s hs0 hsE
  have hnone : (next s).1 = none := by
    rcases hn : (next s).1 with _ | w
    · rfl
    · exfalso
      have hps : next s = (some w, (next s).2) := by
        rw [← hn]
      have := next_some_he s w (next s).2 hps
      rw [hs0] at this
      rw [this] at hsE
      simp at hsE
  have hempty := next_none_empty s hnone
  exact ⟨hnone, hempty, next_of_empty _ hempty⟩

/-- Witness for C6 at the state holding a lone double quote, which
errors on the first pull. -/
theorem claim_C6_witness :
    ((⟨[34], 1, false⟩ : Shlex).had_error = false) ∧
    ((next ⟨[34], 1, false⟩).2.had_error = true) ∧
    ((next ⟨[34], 1, false⟩).1 = none ∧
     (next ⟨[34], 1, false⟩).2.in_iter = [] ∧
     next (next ⟨[34], 1, false⟩).2 = (none, (next ⟨[34], 1, false⟩).2)) := by
  have hE : (next (⟨[34], 1, false⟩ : Shlex)).2.had_error = true := by
    simp [next, next_char, skip_ws, skip_ws_step, parse_word, parse_word_cont,
      parse_word_quoted, parse_double, bump]
  exact ⟨rfl, hE, claim_C6.2.2 ⟨[34], 1, false⟩ rfl hE⟩

/-- C7 as stated is false at the empty byte sequence: it contains no
metacharacter, yet quote maps it to two double-quote bytes rather than
returning it unchanged, and split maps it to the empty word list, not
to a single (empty) word. -/
theorem claim_C7_counterexample :
    (([] : List Nat).any isMeta = false) ∧
    quote [] ≠ [] ∧
    split [] = some [] ∧
    split [] ≠ some [[]] := by
  have hq : quote [] = [34, 34] := by
    rw [quote]
    simp
  have hs : split [] = some [] := by
    have h2 : run (⟨[], 1, false⟩ : Shlex) = ([], ⟨[], 1, false⟩) :=
      run_empty ⟨[], 1, false⟩ rfl
    simp [split, Shlex.new, h2]
  refine ⟨by decide, ?_, hs, ?_⟩
  · rw [hq]
    simp
  · rw [hs]
    simp

/-- C7 amended: restricted to nonempty byte sequences. A nonempty byte
sequence containing no metacharacter, valid in an encoding or not,
passes through quote unchanged and splits to itself as a single word. -/
theorem claim_C7 (w : List Nat) (h0 : w ≠ []) (hm : w.any isMeta = false) :
    quote w = w ∧ split w = some [w] :=
  ⟨quote_of_safe w h0 hm, split_no_meta w h0 hm⟩

/-- Witness for C7 at a one-byte sequence that is invalid in UTF-8. -/
theorem claim_C7_witness :
    ([161] ≠ ([] : List Nat)) ∧ ([161].any isMeta = false) ∧
    (quote [161] = [161] ∧ split [161] = some [[161]]) :=
  ⟨by decide, by decide, claim_C7 [161] (by decide) (by decide)⟩

/-- C8: a hash byte at a position where a token would start opens a
comment consumed through the next newline (or to end of input) without
being emitted, after which scanning resumes; a hash inside a word is a
literal byte. The two concrete splits of the specification hold. -/
theorem claim_C8 :
    (∀ (c rest : List Nat) (ln : Nat) (he : Bool), (∀ x ∈ c, x ≠ 10) →
      next ⟨35 :: (c ++ 10 :: rest), ln, he⟩ = next ⟨rest, ln + 1, he⟩) ∧
    (∀ (c : List Nat) (ln : Nat) (he : Bool), (∀ x ∈ c, x ≠ 10) →
      next ⟨35 :: c, ln, he⟩ = (none, ⟨[], ln, he⟩)) ∧
    split [102, 111, 111, 32, 35, 98, 97, 114, 10, 98, 97, 122]
      = some [[102, 111, 111], [98, 97, 122]] ∧
    split [102, 111, 111, 35, 98, 97, 114]
      = some [[102, 111, 111, 35, 98, 97, 114]] := by
  refine ⟨next_comment, next_comment_eoi, ?_, ?_⟩ <;>
    simp [split, run_eq, next, next_char, skip_ws, skip_ws_step, parse_word,
      parse_word_cont, parse_word_quoted, parse_double, parse_single,
      consume_comment, bump, Shlex.new]

/-- Witness for C8's comment equations at concrete comment bodies. -/
theorem claim_C8_witness :
    (∀ x ∈ [98], x ≠ 10) ∧
    next ⟨35 :: ([98] ++ 10 :: [99]), 1, false⟩ = next ⟨[99], 1 + 1, false⟩ ∧
    next ⟨35 :: [98], 1, false⟩ = (none, ⟨[], 1, false⟩) :=
  ⟨by decide, claim_C8.1 [98] [99] 1 false (by decide),
   claim_C8.2.1 [98] 1 false (by decide)⟩

/-- C9: in the unquoted word loop a backslash followed by any byte
appends that byte verbatim and continues the word, except that
backslash-newline is elided entirely (while still counting the line),
and a trailing backslash at end of input is an error; backslash-newline
is likewise elided inside double quotes. -/
theorem claim_C9 :
    (∀ (c : Nat) (rest : List Nat) (ln : Nat) (he : Bool) (r : List Nat),
      c ≠ 10 → parse_word ⟨c :: rest, ln, he⟩ 92 r
        = parse_word_cont ⟨rest, ln, he⟩ (r ++ [c])) ∧
    (∀ (rest : List Nat) (ln : Nat) (he : Bool) (r : List Nat),
      parse_word ⟨10 :: rest, ln, he⟩ 92 r
        = parse_word_cont ⟨rest, ln + 1, he⟩ r) ∧
    (∀ (ln : Nat) (he : Bool) (r : List Nat),
      parse_word ⟨[], ln, he⟩ 92 r = (none, ⟨[], ln, true⟩)) ∧
    (∀ (rest : List Nat) (ln : Nat) (he : Bool) (r : List Nat),
      parse_double ⟨92 :: 10 :: rest, ln, he⟩ r
        = parse_double ⟨rest, ln + 1, he⟩ r) := by
  refine ⟨?_, ?_, ?_, ?_⟩
  · intro c rest ln he r hc
    rw [parse_word_esc_cons, if_neg hc, bump_ne c ln hc]
  · intro rest ln he r
    rw [parse_word_esc_cons, if_pos rfl, bump_10]
  · intro ln he r
    rw [parse_word_esc_nil]
  · intro rest ln he r
    rw [parse_double.eq_def]
    simp only [if_pos rfl, if_neg (show ¬((10 : Nat) = 36 ∨ (10 : Nat) = 96 ∨
      (10 : Nat) = 34 ∨ (10 : Nat) = 92) by decide)]
    rw [bump_ne 92 ln (by omega), bump_10]
    simp

/-- Witness for C9's escape equation at a concrete non-newline byte. -/
theorem claim_C9_witness :
    ((120 : Nat) ≠ 10) ∧
    parse_word ⟨[120], 1, false⟩ 92 []
      = parse_word_cont ⟨[], 1, false⟩ ([] ++ [120]) :=
  ⟨by decide, claim_C9.1 120 [] 1 false [] (by decide)⟩

/-- C10: line_no starts at 1 and at every step equals 1 plus the number
of newline bytes consumed so far: every byte read and every pull
preserve the sum of line_no and the newlines still unread, a full run
ends with line_no equal to 1 plus the input's newline count, and on the
specification's example the word bar is produced with line_no 3. -/
theorem claim_C10 :
    (∀ l, (Shlex.new l).line_no = 1) ∧
    (∀ s : Shlex, (next_char s).2.line_no + (next_char s).2.in_iter.count 10
        = s.line_no + s.in_iter.count 10) ∧
    (∀ s : Shlex, (next s).2.line_no + (next s).2.in_iter.count 10
        = s.line_no + s.in_iter.count 10) ∧
    (∀ l, (run (Shlex.new l)).2.line_no = 1 + l.count 10) ∧
    next (Shlex.new [10, 102, 111, 111, 10, 98, 97, 114])
      = (some [102, 111, 111], ⟨[98, 97, 114], 3, false⟩) ∧
    next ⟨[98, 97, 114], 3, false⟩ = (some [98, 97, 114], ⟨[], 3, false⟩) := by
  refine ⟨fun l => rfl, fun s => next_char_ln s, fun s => next_ln s,
    run_line_final, ?_, ?_⟩ <;>
    simp [next, next_char, skip_ws, skip_ws_step, parse_word, parse_word_cont,
      parse_word_quoted, parse_double, parse_single, bump, Shlex.new]

end ShlexVerif
